import Mathlib

/-!
# Verification of the octree surface-reconstruction core

This development shallowly embeds the octree topology, boundary-face,
planar-region and meshing code of the repository (octtopo.cpp, octdata.h,
octnode.h, node_boundary.cpp, planar_region.cpp, planar_region_graph.cpp,
region_mesher.cpp) and proves or refutes the stated specification claims.

Doubles are modelled as exact rationals; pointers
as optional identifiers; `std::map` / `std::set` as lists and finite sets.
-/

namespace Geo

/-! ## Cube faces (octtopo.h enum `CUBE_FACE`) -/

/-- The six faces of a cube, as enumerated by `octtopo.h`
(`FACE_XMINUS`, `FACE_XPLUS`, `FACE_YMINUS`, `FACE_YPLUS`,
`FACE_ZMINUS`, `FACE_ZPLUS`). -/
inductive CubeFace where
  | xminus | xplus | yminus | yplus | zminus | zplus
deriving DecidableEq, Repr, Fintype

/-- The list `octtopo::all_cube_faces`, used by every face loop. -/
def allCubeFaces : List CubeFace :=
  [.xminus, .xplus, .yminus, .yplus, .zminus, .zplus]

/-- `octtopo::get_opposing_face`. -/
def oppFace : CubeFace → CubeFace
  | .xminus => .xplus
  | .xplus => .xminus
  | .yminus => .yplus
  | .yplus => .yminus
  | .zminus => .zplus
  | .zplus => .zminus

/-- The coordinate axis a face is orthogonal to (0 = x, 1 = y, 2 = z). -/
def axisOf : CubeFace → Fin 3
  | .xminus | .xplus => 0
  | .yminus | .yplus => 1
  | .zminus | .zplus => 2

/-- The outward sign of a face along its axis: +1 for the plus faces,
-1 for the minus faces. -/
def faceSign : CubeFace → ℚ
  | .xminus | .yminus | .zminus => -1
  | .xplus | .yplus | .zplus => 1

/-! ## Leaf payload (`octdata.h`) -/

/-- The statistics payload `octdata_t` stores in an octree leaf
(`octdata.h`, private fields). -/
structure OctData where
  count : ℕ
  total_weight : ℚ
  prob_sum : ℚ
  prob_sum_sq : ℚ
  surface_sum : ℚ
  corner_sum : ℚ
  planar_sum : ℚ
  fp_room : ℤ
  is_carved : Bool
deriving DecidableEq, Repr

namespace OctData

/-- `octdata_t::UNOBSERVED_PROBABILITY`. -/
def unobservedProbability : ℚ := 1/2

/-- `octdata_t::get_probability`. -/
def get_probability (d : OctData) : ℚ :=
  if 0 < d.count ∧ 0 < d.total_weight then d.prob_sum / d.total_weight
  else unobservedProbability

/-- `octdata_t::is_interior`: strictly greater than 0.5. -/
def is_interior (d : OctData) : Bool :=
  unobservedProbability < d.get_probability

/-- `octdata_t::is_object`:
`return !(this->is_interior() || this->get_fp_room() < 0);`. -/
def is_object (d : OctData) : Bool :=
  !(d.is_interior || decide (d.fp_room < 0))

/-- `octdata_t::get_planar_prob`. -/
def get_planar_prob (d : OctData) : ℚ :=
  if d.count = 0 ∨ d.total_weight = 0 then 0
  else d.planar_sum / d.total_weight

/-- Modelled from the spec: `octdata_t::flip` (the body lives in
`octdata.cpp`, which is not part of the sources; the spec states that
`flip` "replaces `prob_sum` and `prob_sum_sq` with values consistent with
`probability := 1 − probability` and clamps variance to maximum").
`prob_sum := total_weight − prob_sum` realises `probability := 1 − p`,
and `prob_sum_sq` is set so the variance is the maximum 1. -/
def flip (d : OctData) : OctData :=
  { d with
    prob_sum := d.total_weight - d.prob_sum
    prob_sum_sq :=
      d.total_weight * (1 + (1 - d.get_probability) * (1 - d.get_probability)) }

end OctData

/-! ## Segmentation schemes (`node_boundary.h` / `node_boundary.cpp`) -/

/-- The segmentation schemes `SEG_ALL`, `SEG_OBJECTS`, `SEG_ROOM`. -/
inductive SegScheme where
  | all | objects | room
deriving DecidableEq, Repr

/-- A possibly-null octnode as seen by `node_boundary_t`: `none` is a null
node pointer; `some d` is a node whose `data` field is `d` (itself possibly
null). Interior/exterior classification only reads the data pointer. -/
abbrev NodeView := Option (Option OctData)

/-- `node_boundary_t::node_is_interior` (node_boundary.cpp, lines 79-119),
branch for branch. -/
def node_is_interior (scheme : SegScheme) (node : NodeView) : Bool :=
  match scheme with
  | .all =>
      match node with
      | none => false
      | some none => false
      | some (some d) => d.is_interior
  | .objects =>
      match node with
      | none => true
      | some none => true
      | some (some d) =>
          if d.fp_room < 0 then true else d.is_interior
  | .room =>
      match node with
      | none => false
      | some none => false
      | some (some d) =>
          if 0 ≤ d.fp_room then true else d.is_interior

end Geo

namespace Geo

/-! ## Configuration defaults (region_mesher.cpp / planar_region_graph.cpp) -/

/-- The mesher's configuration record (`mesher_t` fields set by
`mesher_t::import`). -/
structure MesherConfig where
  node_outlierthresh : ℚ
  coalesce_distthresh : ℚ
  coalesce_planethresh : ℚ
  use_isosurface_pos : Bool
  min_singular_value : ℚ
  max_colinearity : ℚ
deriving DecidableEq, Repr

/-- `mesher_t::import("")` — the defaults installed when no settings file
is provided (region_mesher.cpp, lines 76-86). -/
def mesherImportDefaults : MesherConfig :=
  { node_outlierthresh := 1
    coalesce_distthresh := 2
    coalesce_planethresh := 0
    use_isosurface_pos := false
    min_singular_value := 1/10
    max_colinearity := 99/100 }

/-- The thresholds held by a `planar_region_graph_t`. -/
structure RegionGraphConfig where
  planarity_threshold : ℚ
  distance_threshold : ℚ
deriving DecidableEq, Repr

/-- The default constructor `planar_region_graph_t::planar_region_graph_t`,
which calls `init(DEFAULT_PLANARITY_THRESHOLD, DEFAULT_DISTANCE_THRESHOLD)`
with `DEFAULT_PLANARITY_THRESHOLD = 0.5` and
`DEFAULT_DISTANCE_THRESHOLD = 1.0` (planar_region_graph.cpp, lines 42-52). -/
def planarRegionGraphDefault : RegionGraphConfig :=
  { planarity_threshold := 1/2
    distance_threshold := 1 }

end Geo

namespace Geo

/-! ## Rendering a face (`octtopo_t::writeobjface`, octtopo.cpp 417-573) -/

/-- An octnode as seen by `writeobjface`: geometry plus data pointer. -/
structure ObjNode where
  center : Fin 3 → ℚ
  halfwidth : ℚ
  data : Option OctData

/-- C-style cast of a double to `int` (truncation toward zero). -/
def cppToInt (q : ℚ) : ℤ := if 0 ≤ q then ⌊q⌋ else ⌈q⌉

/-- A vertex row `v x y z r g b` of the OBJ output. -/
structure ObjVertex where
  x : ℚ
  y : ℚ
  z : ℚ
  r : ℤ
  g : ℤ
  b : ℤ
deriving DecidableEq, Repr

/-- `octtopo_t::writeobjface`: writes the four vertices of face `f` of node
`n` plus a face row.  `none` models a crashed evaluation: the source reads
`n->data->get_planar_prob()` (line 431) *before* testing `n->data == NULL`
(line 434), so a null `data` pointer is dereferenced before the guard.  The
embedding mirrors that evaluation order: the dereference happens first and
fails when `data` is absent. -/
def writeobjface (n : Option ObjNode) (f : CubeFace) (inside usecolor : Bool) :
    Option (List ObjVertex × List ℤ) :=
  match n with
  | none => some ([], [])   -- null argument: don't write anything
  | some node =>
    let c := node.center
    let hw := node.halfwidth
    match node.data with
    | none => none           -- `n->data->get_planar_prob()` dereferences NULL
    | some d =>
      let val := d.get_planar_prob
      let (r, g, b) : ℤ × ℤ × ℤ :=
        if node.data = none ∨ usecolor = false then (255, 255, 255)
        else (cppToInt (255 * val), 0, cppToInt (255 * (1 - val)))
      let mk : ℚ → ℚ → ℚ → ObjVertex := fun a e z => ⟨a, e, z, r, g, b⟩
      let verts : List ObjVertex :=
        match f with
        | .xminus =>
            [mk (c 0 - hw) (c 1 - hw) (c 2 - hw),
             mk (c 0 - hw) (c 1 - hw) (c 2 + hw),
             mk (c 0 - hw) (c 1 + hw) (c 2 + hw),
             mk (c 0 - hw) (c 1 + hw) (c 2 - hw)]
        | .xplus =>
            [mk (c 0 + hw) (c 1 - hw) (c 2 - hw),
             mk (c 0 + hw) (c 1 + hw) (c 2 - hw),
             mk (c 0 + hw) (c 1 + hw) (c 2 + hw),
             mk (c 0 + hw) (c 1 - hw) (c 2 + hw)]
        | .yminus =>
            [mk (c 0 - hw) (c 1 - hw) (c 2 - hw),
             mk (c 0 + hw) (c 1 - hw) (c 2 - hw),
             mk (c 0 + hw) (c 1 - hw) (c 2 + hw),
             mk (c 0 - hw) (c 1 - hw) (c 2 + hw)]
        | .yplus =>
            [mk (c 0 - hw) (c 1 + hw) (c 2 - hw),
             mk (c 0 - hw) (c 1 + hw) (c 2 + hw),
             mk (c 0 + hw) (c 1 + hw) (c 2 + hw),
             mk (c 0 + hw) (c 1 + hw) (c 2 - hw)]
        | .zminus =>
            [mk (c 0 - hw) (c 1 - hw) (c 2 - hw),
             mk (c 0 - hw) (c 1 + hw) (c 2 - hw),
             mk (c 0 + hw) (c 1 + hw) (c 2 - hw),
             mk (c 0 + hw) (c 1 - hw) (c 2 - hw)]
        | .zplus =>
            [mk (c 0 - hw) (c 1 - hw) (c 2 + hw),
             mk (c 0 + hw) (c 1 - hw) (c 2 + hw),
             mk (c 0 + hw) (c 1 + hw) (c 2 + hw),
             mk (c 0 - hw) (c 1 + hw) (c 2 + hw)]
      let facerow : List ℤ := if inside then [-1, -2, -3, -4] else [-4, -3, -2, -1]
      some (verts, facerow)

/-! ## Claims C6, C7, C9, C10 -/

/-- C6 counterexample: under `SEG_OBJECTS` a leaf with data outside any room
(`fp_room < 0`) is classified *interior* (`node_is_interior` returns `true`),
contradicting the claim that `OBJECTS` treats every leaf outside a room as
exterior.  (Null nodes and null-data leaves are likewise classified
interior.) -/
theorem C6_objects_outside_room_is_interior_counterexample :
    node_is_interior .objects
        (some (some ⟨1, 1, 9/10, 81/100, 0, 0, 0, -1, false⟩)) = true ∧
    ((-1 : ℤ) < 0) ∧
    node_is_interior .objects none = true ∧
    node_is_interior .objects (some none) = true := by
  refine ⟨?_, by decide, rfl, rfl⟩
  simp [node_is_interior]

/-- C6 (amended): under `OBJECTS` every leaf outside a room — null node,
null data, or `fp_room < 0` — is classified **interior** (`true`); under
`ROOM`, object leaves (non-interior data inside a room, `fp_room ≥ 0`) are
classified interior. -/
theorem C6_scheme_classification
    (n : NodeView) (d : OctData)
    (hn : n = none ∨ n = some none ∨
          ∃ d', n = some (some d') ∧ d'.fp_room < 0)
    (hd : 0 ≤ d.fp_room) :
    node_is_interior .objects n = true ∧
    node_is_interior .room (some (some d)) = true := by
  constructor
  · rcases hn with h | h | ⟨d', h, hlt⟩ <;> subst h
    · rfl
    · rfl
    · simp [node_is_interior, hlt]
  · simp [node_is_interior, hd]

/-- C6 witness: the amended classification at concrete inputs. -/
theorem C6_scheme_classification_witness :
    node_is_interior .objects none = true ∧
    node_is_interior .room
      (some (some ⟨1, 1, 1/10, 1/100, 0, 0, 0, 3, false⟩)) = true :=
  C6_scheme_classification none ⟨1, 1, 1/10, 1/100, 0, 0, 0, 3, false⟩
    (Or.inl rfl) (by decide)

/-- C7 counterexample: a non-interior payload with `fp_room = -1` is *not*
an object (`is_object` returns `false`), although the claim (`object =
¬interior ∧ fp_room < 0`) says it should be one. -/
theorem C7_is_object_counterexample :
    (OctData.is_object ⟨1, 1, 3/10, 9/100, 0, 0, 0, -1, false⟩) = false ∧
    (OctData.is_interior ⟨1, 1, 3/10, 9/100, 0, 0, 0, -1, false⟩) = false ∧
    ((-1 : ℤ) < 0) := by
  refine ⟨?_, ?_, by decide⟩ <;>
    simp [OctData.is_object, OctData.is_interior, OctData.get_probability,
          OctData.unobservedProbability] <;> norm_num

/-- C7 (amended): `is_object` returns `true` exactly when the payload is
not interior **and** its floorplan room index is non-negative
(`object = ¬interior ∧ fp_room ≥ 0`). -/
theorem C7_is_object_characterization (d : OctData) :
    d.is_object = (!d.is_interior && decide (0 ≤ d.fp_room)) := by
  have h : (!decide (d.fp_room < 0)) = decide (0 ≤ d.fp_room) := by
    rcases lt_or_le d.fp_room 0 with h' | h'
    · simp [h', not_le.mpr h']
    · simp [h', not_lt.mpr h']
  simp only [OctData.is_object, Bool.not_or, h]

/-- C9 counterexample: the no-settings-file defaults are *not*
`coalesce_planethresh = 0.5` for the mesher, and *not*
`coalesce_distthresh = 2.0` for the default-constructed region graph. -/
theorem C9_defaults_counterexample :
    mesherImportDefaults.coalesce_planethresh ≠ 1/2 ∧
    planarRegionGraphDefault.distance_threshold ≠ 2 := by
  constructor <;> norm_num [mesherImportDefaults, planarRegionGraphDefault]

/-- C9 (amended): with no settings file the mesher defaults to
`coalesce_distthresh = 2.0` and `coalesce_planethresh = 0.0`, while the
default-constructed `planar_region_graph_t` uses planarity threshold `0.5`
and distance threshold `1.0`. -/
theorem C9_defaults :
    mesherImportDefaults.coalesce_distthresh = 2 ∧
    mesherImportDefaults.coalesce_planethresh = 0 ∧
    planarRegionGraphDefault.planarity_threshold = 1/2 ∧
    planarRegionGraphDefault.distance_threshold = 1 := by
  refine ⟨rfl, rfl, rfl, rfl⟩

/-- C10: `writeobjface` dereferences `n->data` before its `n->data == NULL`
test: for every non-null node whose data pointer is null, evaluation fails
at the dereference (`none`), for every face, orientation and color flag —
the null-data fallback branch can never protect the dereference. -/
theorem C10_writeobjface_null_data_deref
    (c : Fin 3 → ℚ) (hw : ℚ) (f : CubeFace) (inside usecolor : Bool) :
    writeobjface (some ⟨c, hw, none⟩) f inside usecolor = none := by
  cases f <;> rfl

end Geo

namespace Geo

/-! ## Outlier removal (`octtopo_t::remove_outliers`, octtopo.cpp 193-321)

The neighbor map built by `octtopo_t` is modelled as an abstract node type
`ι` with a key list (the `std::map` iteration order), a halfwidth per node
and a per-face neighbor list (the contents of each `octneighbors_t` set). -/

/-- The data `remove_outliers` reads from the topology: map keys in
iteration order, node halfwidths, per-face neighbor sets. -/
structure OutlierTopo (ι : Type) where
  keys : List ι
  hw : ι → ℚ
  nbrs : ι → CubeFace → List ι

/-- `octtopo_t::node_is_interior` (octtopo.cpp 323-335) on a non-null node:
false when the node's data is null, else `data->is_interior()`. -/
def nodeInterior {ι : Type} (dataOf : ι → Option OctData) (x : ι) : Bool :=
  match dataOf x with
  | none => false
  | some d => d.is_interior

/-- Modelled from the spec: `octnode_t::surface_area` (octnode.cpp is not
among the sources).  A node of halfwidth `hw` is a cube of side `2·hw`,
whose total surface area is `6·(2·hw)² = 24·hw²`; the spec describes the
outlier vote as "the fraction of its boundary area whose neighbor label
disagrees". -/
def surfaceArea (hw : ℚ) : ℚ := 24 * hw * hw

/-- The weighted disagreement count accumulated by the neighbor loop of
`remove_outliers` (octtopo.cpp 283-299): for every neighbor (collected
face by face over `all_cube_faces`) whose interior flag differs from
`current_in`, the shared area `4·min(hw_n, hw_x)²` is added. -/
def disagreeCount {ι : Type} (T : OutlierTopo ι) (dataOf : ι → Option OctData)
    (x : ι) (current_in : Bool) : ℚ :=
  ((allCubeFaces.flatMap (T.nbrs x)).map fun n =>
      if nodeInterior dataOf n ≠ current_in
      then 4 * min (T.hw n) (T.hw x) * min (T.hw n) (T.hw x) else 0).sum

/-- The body of one `remove_outliers` iteration after the popped node `x`
has been validated: returns the (possibly flipped) data assignment and the
list of neighbors re-queued onto the interior queue.  Mirrors octtopo.cpp
264-314: skip if the data pointer is null, skip if the label no longer
matches the queue the node came from, accumulate the disagreeing shared
area, skip if `count/myarea < thresh`, else flip and re-queue the
neighbors that agreed with the old label. -/
def examine {ι : Type} [DecidableEq ι] (T : OutlierTopo ι) (thresh : ℚ)
    (dataOf : ι → Option OctData) (x : ι) (current_in : Bool) :
    (ι → Option OctData) × List ι :=
  match dataOf x with
  | none => (dataOf, [])
  | some d =>
    if nodeInterior dataOf x ≠ current_in then (dataOf, [])
    else
      let myarea := surfaceArea (T.hw x)
      let count := disagreeCount T dataOf x current_in
      if count / myarea < thresh then (dataOf, [])
      else
        let dataOf' := Function.update dataOf x (some d.flip)
        (dataOf', (allCubeFaces.flatMap (T.nbrs x)).filter
            fun n => nodeInterior dataOf' n == current_in)

/-- The queue state of the outlier loop: the current data assignment and
the two FIFOs (`in_to_check`, `out_to_check`). -/
structure ROState (ι : Type) where
  dataOf : ι → Option OctData
  inQ : List ι
  outQ : List ι

/-- The main loop of `remove_outliers` (octtopo.cpp 231-315), with an
explicit fuel bound (the C++ loop terminates because each flip strictly
decreases the total disagreeing shared area).  Interior-queue entries are
popped first; popped nodes must be map keys (the C++ code errors out on an
invalid iterator); re-queued neighbors are appended to the interior FIFO. -/
def runRO {ι : Type} [DecidableEq ι] (T : OutlierTopo ι) (thresh : ℚ) :
    ℕ → ROState ι → Option (ι → Option OctData)
  | 0, _ => none
  | fuel + 1, st =>
    match st.inQ, st.outQ with
    | [], [] => some st.dataOf
    | [], y :: out' =>
        if y ∈ T.keys then
          let r := examine T thresh st.dataOf y false
          runRO T thresh fuel ⟨r.1, r.2, out'⟩
        else none
    | x :: in', out =>
        if x ∈ T.keys then
          let r := examine T thresh st.dataOf x true
          runRO T thresh fuel ⟨r.1, in' ++ r.2, out⟩
        else none

/-- `octtopo_t::remove_outliers`: out-of-range thresholds return without
touching anything (octtopo.cpp 205-208); otherwise all currently interior
keys are queued first (in map order), then all exterior keys, and the loop
runs to completion. -/
def remove_outliers {ι : Type} [DecidableEq ι] (T : OutlierTopo ι)
    (thresh : ℚ) (dataOf : ι → Option OctData) (fuel : ℕ) :
    Option (ι → Option OctData) :=
  if thresh ≤ 1/2 ∨ 1 < thresh then some dataOf
  else
    runRO T thresh fuel
      { dataOf := dataOf
        inQ := T.keys.filter fun x => nodeInterior dataOf x
        outQ := T.keys.filter fun x => !nodeInterior dataOf x }

/-! ### The 3×3×3 grid scenario -/

/-- Node ids of the 3×3×3 grid: integer coordinates in `{0,1,2}³`. -/
abbrev G3 := ℤ × ℤ × ℤ

/-- The 27 grid nodes, x-major. -/
def g3keys : List G3 :=
  ([0, 1, 2].flatMap fun x => [0, 1, 2].flatMap fun y => [0, 1, 2].map fun z =>
    ((x : ℤ), (y : ℤ), (z : ℤ)))

/-- Face adjacency of the grid: one neighbor per face when it stays inside
the `{0,1,2}³` block. -/
def g3nbrs : G3 → CubeFace → List G3 :=
  fun p f =>
    match p, f with
    | (x, y, z), .xminus => if 0 ≤ x - 1 then [(x - 1, y, z)] else []
    | (x, y, z), .xplus => if x + 1 ≤ 2 then [(x + 1, y, z)] else []
    | (x, y, z), .yminus => if 0 ≤ y - 1 then [(x, y - 1, z)] else []
    | (x, y, z), .yplus => if y + 1 ≤ 2 then [(x, y + 1, z)] else []
    | (x, y, z), .zminus => if 0 ≤ z - 1 then [(x, y, z - 1)] else []
    | (x, y, z), .zplus => if z + 1 ≤ 2 then [(x, y, z + 1)] else []

/-- Payload of the center leaf: one sample of weight 1, probability 0.9. -/
def dIn : OctData := ⟨1, 1, 9/10, 81/100, 0, 0, 0, -1, false⟩

/-- Payload of the 26 surrounding leaves: probability 0.1. -/
def dOut : OctData := ⟨1, 1, 1/10, 1/100, 0, 0, 0, -1, false⟩

/-- The center of the 3×3×3 grid. -/
def g3c : G3 := ((1 : ℤ), (1 : ℤ), (1 : ℤ))

/-- Center leaf at probability 0.9, everything else at 0.1. -/
def g3data : G3 → Option OctData :=
  fun p => if p = g3c then some dIn else some dOut

/-- The grid topology: equal-size leaves of halfwidth 1/2. -/
def g3topo : OutlierTopo G3 :=
  { keys := g3keys, hw := fun _ => 1/2, nbrs := g3nbrs }

/-- The center's probability after running `remove_outliers` on the grid
with the given threshold and enough fuel for all 54 queue pops. -/
def g3centerProbAfter (thresh : ℚ) : Option (Option ℚ) :=
  (remove_outliers g3topo thresh g3data 60).map
    fun f => (f g3c).map OctData.get_probability

end Geo

namespace Geo

/-! ### Supporting lemmas for the outlier loop -/

/-- If every pop of the exterior queue is a no-op (`examine` leaves the
data unchanged and re-queues nothing), the loop drains the queue and
returns the current data assignment. -/
theorem runRO_skips {ι : Type} [DecidableEq ι] (T : OutlierTopo ι)
    (thresh : ℚ) (dataOf : ι → Option OctData)
    (hsk : ∀ y, examine T thresh dataOf y false = (dataOf, [])) :
    ∀ (out : List ι) (fuel : ℕ), out.length < fuel →
      (∀ y ∈ out, y ∈ T.keys) →
      runRO T thresh fuel ⟨dataOf, [], out⟩ = some dataOf := by
  intro out
  induction out with
  | nil =>
      intro fuel hf _
      cases fuel with
      | zero => omega
      | succ n => simp [runRO]
  | cons y ys ih =>
      intro fuel hf hmem
      cases fuel with
      | zero => simp at hf
      | succ n =>
          have hy : y ∈ T.keys := hmem y (List.mem_cons_self y ys)
          simp only [runRO]
          rw [if_pos hy]
          simp only [hsk y]
          exact ih n (by simpa using hf)
            (fun z hz => hmem z (List.mem_cons_of_mem y hz))

/-- `examine` leaves everything unchanged when the disagreeing-area
fraction is below the threshold. -/
theorem examine_skip_of_lt {ι : Type} [DecidableEq ι] (T : OutlierTopo ι)
    (thresh : ℚ) (dataOf : ι → Option OctData) (x : ι) (current_in : Bool)
    (d : OctData) (hd : dataOf x = some d)
    (hl : nodeInterior dataOf x = current_in)
    (hlt : disagreeCount T dataOf x current_in / surfaceArea (T.hw x)
            < thresh) :
    examine T thresh dataOf x current_in = (dataOf, []) := by
  simp only [examine, hd, hl, bne_self_eq_false, Bool.false_eq_true,
    if_false]
  rw [if_pos hlt]
  simp

/-- `examine` flips the popped node as soon as the disagreeing-area
fraction reaches the threshold (`count/myarea ≥ thresh`, octtopo.cpp
302-306). -/
theorem examine_flips_of_ge {ι : Type} [DecidableEq ι] (T : OutlierTopo ι)
    (thresh : ℚ) (dataOf : ι → Option OctData) (x : ι) (current_in : Bool)
    (d : OctData) (hd : dataOf x = some d)
    (hl : nodeInterior dataOf x = current_in)
    (hge : thresh ≤ disagreeCount T dataOf x current_in
            / surfaceArea (T.hw x)) :
    (examine T thresh dataOf x current_in).1
      = Function.update dataOf x (some d.flip) := by
  simp only [examine, hd, hl, bne_self_eq_false, Bool.false_eq_true,
    if_false]
  rw [if_neg (not_lt.mpr hge)]
  simp

/-- The data assignment after the center of the grid has been flipped. -/
def g3flipped : G3 → Option OctData := Function.update g3data g3c (some dIn.flip)

theorem g3flipped_not_interior (y : G3) : nodeInterior g3flipped y = false := by
  rcases eq_or_ne y g3c with h | h
  · subst h
    norm_num [nodeInterior, g3flipped, Function.update_apply, dIn,
      OctData.flip, OctData.is_interior, OctData.get_probability,
      OctData.unobservedProbability]
  · norm_num [nodeInterior, g3flipped, Function.update_apply, h, g3data,
      dOut, OctData.is_interior, OctData.get_probability,
      OctData.unobservedProbability]

theorem g3flipped_skip (thresh : ℚ) (hth : 0 < thresh) (y : G3) :
    examine g3topo thresh g3flipped y false = (g3flipped, []) := by
  have hdata : ∃ d, g3flipped y = some d := by
    rcases eq_or_ne y g3c with h | h
    · subst h
      exact ⟨dIn.flip, by simp [g3flipped, Function.update_apply]⟩
    · refine ⟨dOut, ?_⟩
      simp [g3flipped, Function.update_apply, h, g3data]
  obtain ⟨d, hd⟩ := hdata
  have hzero : disagreeCount g3topo g3flipped y false = 0 := by
    rw [disagreeCount]
    rw [List.sum_eq_zero]
    intro q hq
    simp only [List.mem_map] at hq
    obtain ⟨n, _, rfl⟩ := hq
    simp [g3flipped_not_interior n]
  simp only [examine, hd, g3flipped_not_interior y, hzero]
  have harea : surfaceArea (g3topo.hw y) = 6 := by
    norm_num [surfaceArea, g3topo]
  rw [harea]
  norm_num [hth]

theorem g3_first_step (thresh : ℚ) (hth : thresh ≤ 1) :
    examine g3topo thresh g3data g3c true = (g3flipped, []) := by
  have h1 : g3data g3c = some dIn := by simp [g3data]
  have hlab : nodeInterior g3data g3c = true := by
    norm_num [nodeInterior, g3data, dIn, OctData.is_interior,
      OctData.get_probability, OctData.unobservedProbability]
  have hcnt : disagreeCount g3topo g3data g3c true = 6 := by
    norm_num [disagreeCount, g3topo, g3nbrs, g3c, allCubeFaces, nodeInterior,
      g3data, dIn, dOut, OctData.is_interior, OctData.get_probability,
      OctData.unobservedProbability]
  have hnlt : ¬(disagreeCount g3topo g3data g3c true
      / surfaceArea (g3topo.hw g3c) < thresh) := by
    rw [hcnt]
    have harea : surfaceArea (g3topo.hw g3c) = 6 := by
      norm_num [surfaceArea, g3topo]
    rw [harea]
    norm_num
    linarith
  have hfilter : ((allCubeFaces.flatMap (g3topo.nbrs g3c)).filter
      fun n => nodeInterior (Function.update g3data g3c (some dIn.flip)) n
        == true) = [] := by
    rw [List.filter_eq_nil_iff]
    intro n _
    have h2 := g3flipped_not_interior n
    rw [g3flipped] at h2
    simp [h2]
  simp only [examine, h1, hlab, bne_self_eq_false, Bool.false_eq_true,
    if_false]
  rw [if_neg hnlt, hfilter, g3flipped]
  simp

/-- One unfolding step of `runRO` when the interior queue is nonempty. -/
theorem runRO_cons {ι : Type} [DecidableEq ι] (T : OutlierTopo ι)
    (thresh : ℚ) (fuel : ℕ) (dataOf : ι → Option OctData) (x : ι)
    (inq out : List ι) :
    runRO T thresh (fuel + 1) ⟨dataOf, x :: inq, out⟩ =
      if x ∈ T.keys then
        runRO T thresh fuel ⟨(examine T thresh dataOf x true).1,
          inq ++ (examine T thresh dataOf x true).2, out⟩
      else none := rfl

/-- The interior label of every grid node: only the center is interior. -/
theorem g3data_label (p : G3) : nodeInterior g3data p = decide (p = g3c) := by
  rcases eq_or_ne p g3c with h | h
  · subst h
    norm_num [nodeInterior, g3data, dIn, OctData.is_interior,
      OctData.get_probability, OctData.unobservedProbability]
  · norm_num [nodeInterior, g3data, h, dOut, OctData.is_interior,
      OctData.get_probability, OctData.unobservedProbability]

set_option maxRecDepth 8000 in
/-- The full grid run: for any threshold in `(1/2, 1]` the loop flips the
center once and then drains the queues without further changes. -/
theorem g3run (thresh : ℚ) (h1 : 1/2 < thresh) (h2 : thresh ≤ 1) :
    remove_outliers g3topo thresh g3data 60 = some g3flipped := by
  rw [remove_outliers]
  rw [if_neg (by push_neg; constructor <;> linarith)]
  have hfun : (fun x => nodeInterior g3data x) = (fun x : G3 => decide (x = g3c)) :=
    funext g3data_label
  have hin : (g3topo.keys.filter fun x => nodeInterior g3data x) = [g3c] := by
    show (g3keys.filter fun x => nodeInterior g3data x) = [g3c]
    rw [hfun]
    decide
  rw [hin]
  rw [show (60 : ℕ) = 59 + 1 from rfl]
  rw [runRO_cons]
  rw [if_pos (by decide : g3c ∈ g3topo.keys)]
  simp only [g3_first_step thresh h2, List.nil_append]
  apply runRO_skips g3topo thresh g3flipped
    (g3flipped_skip thresh (by linarith))
  · have hlen := List.length_filter_le (fun x => !nodeInterior g3data x) g3topo.keys
    have hk : g3topo.keys.length = 27 := by decide
    omega
  · intro y hy
    exact (List.mem_filter.mp hy).1

end Geo

namespace Geo

/-- On the 3×3×3 grid the center's probability after `remove_outliers`
is 0.1, for every threshold in `(1/2, 1]`. -/
theorem g3centerProbAfter_eval (thresh : ℚ) (h1 : 1/2 < thresh)
    (h2 : thresh ≤ 1) : g3centerProbAfter thresh = some (some (1/10)) := by
  rw [g3centerProbAfter, g3run thresh h1 h2]
  norm_num [g3flipped, Function.update_apply, dIn, OctData.flip,
    OctData.get_probability]

/-- C5 counterexample: on the 3×3×3 grid with threshold `0.99` the center
leaf *is* flipped — its probability changes from 0.9 to 0.1 — because all
six of its face neighbors disagree, so the disagreeing-area fraction is 1
(`≥ 0.99`).  The claim asserts the center is left unchanged at this
threshold. -/
theorem C5_remove_outliers_counterexample :
    g3centerProbAfter (99/100) = some (some (1/10)) ∧
    (g3data g3c).map OctData.get_probability = some (9/10) ∧
    ((1/10 : ℚ) ≠ 9/10) ∧
    ((1/2 : ℚ) < 99/100 ∧ (99/100 : ℚ) ≤ 1) := by
  refine ⟨g3centerProbAfter_eval (99/100) (by norm_num) (by norm_num),
    ?_, by norm_num, by norm_num, by norm_num⟩
  norm_num [g3data, dIn, OctData.get_probability]

/-- C5 (amended): `remove_outliers` is the identity for thresholds outside
`(1/2, 1]`; a validated popped leaf is flipped exactly when the fraction
of its surface area shared with disagreeing neighbors is **at least** the
threshold (not strictly greater); and on the 3×3×3 grid with center
probability 0.9 and neighbors 0.1, *both* threshold 0.6 and threshold 0.99
flip the center, leaving it with probability 0.1 < 0.5 (all six face
neighbors disagree, so the fraction is 1). -/
theorem C5_remove_outliers_flip_rule {ι : Type} [DecidableEq ι]
    (T : OutlierTopo ι) (thresh : ℚ) (dataOf : ι → Option OctData)
    (fuel : ℕ) (x : ι) (current_in : Bool) (d : OctData)
    (hd : dataOf x = some d) (hl : nodeInterior dataOf x = current_in) :
    (thresh ≤ 1/2 ∨ 1 < thresh →
        remove_outliers T thresh dataOf fuel = some dataOf) ∧
    (disagreeCount T dataOf x current_in / surfaceArea (T.hw x) < thresh →
        examine T thresh dataOf x current_in = (dataOf, [])) ∧
    (thresh ≤ disagreeCount T dataOf x current_in / surfaceArea (T.hw x) →
        (examine T thresh dataOf x current_in).1
          = Function.update dataOf x (some d.flip)) ∧
    g3centerProbAfter (3/5) = some (some (1/10)) ∧
    g3centerProbAfter (99/100) = some (some (1/10)) ∧
    ((1/10 : ℚ) < 1/2) := by
  refine ⟨fun h => ?_,
    examine_skip_of_lt T thresh dataOf x current_in d hd hl,
    examine_flips_of_ge T thresh dataOf x current_in d hd hl,
    g3centerProbAfter_eval (3/5) (by norm_num) (by norm_num),
    g3centerProbAfter_eval (99/100) (by norm_num) (by norm_num),
    by norm_num⟩
  rw [remove_outliers, if_pos h]

/-- C5 witness: the flip rule applied on the grid at threshold 0.6, with
every hypothesis discharged at the concrete center node. -/
theorem C5_remove_outliers_flip_rule_witness :
    g3data g3c = some dIn ∧
    nodeInterior g3data g3c = true ∧
    (3/5 : ℚ) ≤ disagreeCount g3topo g3data g3c true
        / surfaceArea (g3topo.hw g3c) ∧
    (examine g3topo (3/5) g3data g3c true).1
        = Function.update g3data g3c (some dIn.flip) ∧
    g3centerProbAfter (99/100) = some (some (1/10)) := by
  have hd : g3data g3c = some dIn := by simp [g3data]
  have hl : nodeInterior g3data g3c = true := by
    rw [g3data_label]
    simp
  have hge : (3/5 : ℚ) ≤ disagreeCount g3topo g3data g3c true
      / surfaceArea (g3topo.hw g3c) := by
    have hcnt : disagreeCount g3topo g3data g3c true = 6 := by
      norm_num [disagreeCount, g3topo, g3nbrs, g3c, allCubeFaces,
        nodeInterior, g3data, dIn, dOut, OctData.is_interior,
        OctData.get_probability, OctData.unobservedProbability]
    rw [hcnt]
    norm_num [surfaceArea, g3topo]
  have hmain := C5_remove_outliers_flip_rule g3topo (3/5) g3data 60 g3c
    true dIn hd hl
  exact ⟨hd, hl, hge, hmain.2.2.1 hge, hmain.2.2.2.2.1⟩

end Geo

namespace Geo

/-! ## Boundary-face extraction (`node_boundary_t::populate_faces`,
node_boundary.cpp 302-400)

The topology handed to `populate_faces` is modelled as the list of
`(node, octneighbors)` entries of the `octtopo_t` map, in iteration order,
together with the data pointer of every node. -/

/-- `node_face_t`: the oriented tuple `(interior, exterior, direction)`
(`exterior = none` is the NULL unbounded-exterior sentinel). -/
structure NodeFace (ι : Type) where
  interior : ι
  exterior : Option ι
  direction : CubeFace
deriving DecidableEq, Repr

/-- The state built by `populate_faces`: the face map (as its key list in
insertion order — `std::map::insert` fails on duplicates, octtopo keyed by
the face triple) and the `node_face_map` multimap (as a pair list). -/
structure BState (ι : Type) where
  faces : List (NodeFace ι)
  nfm : List (ι × NodeFace ι)
deriving Repr

/-- `this->faces.insert(...)`: fails (the C++ function returns `-1`) if the
face is already present. -/
def insFace {ι : Type} [DecidableEq ι] (faces : List (NodeFace ι))
    (F : NodeFace ι) : Option (List (NodeFace ι)) :=
  if F ∈ faces then none else some (faces ++ [F])

/-- The neighbor list actually scanned for one `(node, face)` pair: the
topology's neighbor set, or the single NULL node when it is empty
(node_boundary.cpp 346-347). -/
def nlistOf {ι : Type} (neighs : List ι) : List (Option ι) :=
  if neighs.isEmpty then [none] else neighs.map some

/-- The inner neighbor loop of `populate_faces` (node_boundary.cpp
349-387): skips interior neighbors, reuses the mutable `face` variable
(updating only its `exterior` field), inserts each emitted face into the
face map, records non-null exteriors into `node_face_map`, and tracks
`found_exterior`. -/
def neighLoop {ι : Type} [DecidableEq ι] (scheme : SegScheme)
    (dataOf : ι → Option OctData) :
    List (Option ι) → BState ι → Bool → NodeFace ι →
    Option (BState ι × Bool × NodeFace ι)
  | [], st, found, cur => some (st, found, cur)
  | e :: rest, st, found, cur =>
    if node_is_interior scheme (e.map dataOf) then
      neighLoop scheme dataOf rest st found cur
    else
      let cur' := { cur with exterior := e }
      match insFace st.faces cur' with
      | none => none
      | some faces' =>
        let nfm' :=
          match e with
          | some eid => st.nfm ++ [(eid, cur')]
          | none => st.nfm
        neighLoop scheme dataOf rest ⟨faces', nfm'⟩ true cur'

/-- The per-node face loop of `populate_faces` (node_boundary.cpp
330-394): for each cube face, initialize the mutable face to
`(node, NULL, f)`, scan the (possibly NULL-padded) neighbor list, and if
any exterior neighbor was found record the node in `node_face_map` with
the last face value. -/
def faceLoop {ι : Type} [DecidableEq ι] (scheme : SegScheme)
    (dataOf : ι → Option OctData) (n : ι) (entry : CubeFace → List ι) :
    List CubeFace → BState ι → Option (BState ι)
  | [], st => some st
  | f :: fs, st =>
    match neighLoop scheme dataOf (nlistOf (entry f)) st false ⟨n, none, f⟩ with
    | none => none
    | some (st', found, cur) =>
      let st'' := if found then { st' with nfm := st'.nfm ++ [(n, cur)] } else st'
      faceLoop scheme dataOf n entry fs st''

/-- `node_boundary_t::populate_faces`: iterate over the topology map,
skipping non-interior nodes (under the boundary's segmentation scheme),
and emit the boundary faces of each interior node. -/
def populate_faces {ι : Type} [DecidableEq ι] (scheme : SegScheme)
    (dataOf : ι → Option OctData) :
    List (ι × (CubeFace → List ι)) → BState ι → Option (BState ι)
  | [], st => some st
  | (n, entry) :: rest, st =>
    if node_is_interior scheme (some (dataOf n)) then
      match faceLoop scheme dataOf n entry allCubeFaces st with
      | none => none
      | some st' => populate_faces scheme dataOf rest st'
    else populate_faces scheme dataOf rest st

/-- The faces `populate_faces` is expected to emit for one node and one
direction: every scanned neighbor (NULL included when the set is empty)
that is non-interior under the scheme. -/
def newsFor {ι : Type} (scheme : SegScheme) (dataOf : ι → Option OctData)
    (n : ι) (entry : CubeFace → List ι) (f : CubeFace) : List (NodeFace ι) :=
  (nlistOf (entry f)).filterMap fun e =>
    if node_is_interior scheme (e.map dataOf) then none
    else some ⟨n, e, f⟩

/-- All faces expected from a topology: per interior node, per direction,
per non-interior scanned neighbor. -/
def specFaces {ι : Type} (scheme : SegScheme) (dataOf : ι → Option OctData)
    (topo : List (ι × (CubeFace → List ι))) : List (NodeFace ι) :=
  topo.flatMap fun p =>
    if node_is_interior scheme (some (dataOf p.1)) then
      allCubeFaces.flatMap fun f => newsFor scheme dataOf p.1 p.2 f
    else []

end Geo

namespace Geo

/-- The faces generated while scanning a neighbor list `es` for node `n`
in direction `f`: one face per scanned neighbor that is non-interior under
the scheme. -/
def newsOf {ι : Type} (scheme : SegScheme) (dataOf : ι → Option OctData)
    (n : ι) (f : CubeFace) (es : List (Option ι)) : List (NodeFace ι) :=
  es.filterMap fun e =>
    if node_is_interior scheme (e.map dataOf) then none
    else some ⟨n, e, f⟩

theorem newsFor_eq_newsOf {ι : Type} (scheme : SegScheme)
    (dataOf : ι → Option OctData) (n : ι) (entry : CubeFace → List ι)
    (f : CubeFace) :
    newsFor scheme dataOf n entry f
      = newsOf scheme dataOf n f (nlistOf (entry f)) := rfl

section BoundaryProofs

variable {ι : Type} [DecidableEq ι] (scheme : SegScheme)
variable (dataOf : ι → Option OctData)

/-- Running the neighbor loop on a duplicate-free workload appends exactly
the non-interior scanned neighbors as faces. -/
theorem neighLoop_run (n : ι) (f : CubeFace) :
    ∀ (es : List (Option ι)) (st : BState ι) (found : Bool) (ex0 : Option ι),
      (st.faces ++ newsOf scheme dataOf n f es).Nodup →
      ∃ nfm' found' ex',
        neighLoop scheme dataOf es st found ⟨n, ex0, f⟩
          = some (⟨st.faces ++ newsOf scheme dataOf n f es, nfm'⟩,
                  found', ⟨n, ex', f⟩) := by
  intro es
  induction es with
  | nil =>
      intro st found ex0 _
      exact ⟨st.nfm, found, ex0, by simp [neighLoop, newsOf]⟩
  | cons e rest ih =>
      intro st found ex0 hnd
      by_cases hint : node_is_interior scheme (e.map dataOf) = true
      · have hnews : newsOf scheme dataOf n f (e :: rest)
            = newsOf scheme dataOf n f rest := by
          simp [newsOf, List.filterMap_cons, hint]
        rw [hnews] at hnd ⊢
        have := ih st found ex0 hnd
        simpa [neighLoop, hint] using this
      · rw [Bool.not_eq_true] at hint
        have hnews : newsOf scheme dataOf n f (e :: rest)
            = (⟨n, e, f⟩ : NodeFace ι) :: newsOf scheme dataOf n f rest := by
          simp [newsOf, List.filterMap_cons, hint]
        rw [hnews] at hnd ⊢
        have hnotmem : (⟨n, e, f⟩ : NodeFace ι) ∉ st.faces := by
          rw [List.nodup_append] at hnd
          exact fun hmem => (hnd.2.2 hmem) (List.mem_cons_self _ _)
        have hstep : insFace st.faces ⟨n, e, f⟩
            = some (st.faces ++ [⟨n, e, f⟩]) := by
          rw [insFace, if_neg hnotmem]
        have hnd2 : ((st.faces ++ [(⟨n, e, f⟩ : NodeFace ι)])
            ++ newsOf scheme dataOf n f rest).Nodup := by
          simpa using hnd
        cases e with
        | none =>
            obtain ⟨nfm', found', ex', hrun⟩ :=
              ih ⟨st.faces ++ [⟨n, none, f⟩], st.nfm⟩ true none hnd2
            refine ⟨nfm', found', ex', ?_⟩
            simp only [neighLoop, hint, Bool.false_eq_true, if_false, hstep]
            rw [hrun]
            simp
        | some eid =>
            obtain ⟨nfm', found', ex', hrun⟩ :=
              ih ⟨st.faces ++ [⟨n, some eid, f⟩],
                  st.nfm ++ [(eid, ⟨n, some eid, f⟩)]⟩ true (some eid) hnd2
            refine ⟨nfm', found', ex', ?_⟩
            simp only [neighLoop, hint, Bool.false_eq_true, if_false, hstep]
            rw [hrun]
            simp

/-- Running the face loop appends `newsFor` for every direction in the
list. -/
theorem faceLoop_run (n : ι) (entry : CubeFace → List ι) :
    ∀ (fs : List CubeFace) (st : BState ι),
      (st.faces ++ fs.flatMap (newsFor scheme dataOf n entry)).Nodup →
      ∃ nfm', faceLoop scheme dataOf n entry fs st
          = some ⟨st.faces ++ fs.flatMap (newsFor scheme dataOf n entry),
                  nfm'⟩ := by
  intro fs
  induction fs with
  | nil =>
      intro st _
      exact ⟨st.nfm, by simp [faceLoop]⟩
  | cons f fs ih =>
      intro st hnd
      have hnd1 : (st.faces ++ newsOf scheme dataOf n f (nlistOf (entry f))).Nodup := by
        rw [← newsFor_eq_newsOf]
        have hsub : (st.faces ++ newsFor scheme dataOf n entry f).Sublist
            (st.faces ++ (f :: fs).flatMap (newsFor scheme dataOf n entry)) := by
          apply List.Sublist.append_left
          simp only [List.flatMap_cons]
          exact List.sublist_append_left _ _
        exact hnd.sublist hsub
      obtain ⟨nfm1, found1, ex1, hrun1⟩ :=
        neighLoop_run scheme dataOf n f (nlistOf (entry f)) st false none hnd1
      have hrun1' : neighLoop scheme dataOf (nlistOf (entry f)) st false
          ⟨n, none, f⟩ = some (⟨st.faces ++ newsFor scheme dataOf n entry f,
            nfm1⟩, found1, ⟨n, ex1, f⟩) := by
        rw [newsFor_eq_newsOf]
        exact hrun1
      have hnd2 : ((st.faces ++ newsFor scheme dataOf n entry f) ++
          fs.flatMap (newsFor scheme dataOf n entry)).Nodup := by
        simpa [List.flatMap_cons] using hnd
      have hfin : st.faces ++ newsFor scheme dataOf n entry f
          ++ fs.flatMap (newsFor scheme dataOf n entry)
          = st.faces ++ (f :: fs).flatMap (newsFor scheme dataOf n entry) := by
        simp [List.flatMap_cons]
      cases found1 with
      | false =>
          obtain ⟨nfm2, hrun2⟩ :=
            ih ⟨st.faces ++ newsFor scheme dataOf n entry f, nfm1⟩ hnd2
          refine ⟨nfm2, ?_⟩
          simp only [faceLoop, hrun1', Bool.false_eq_true, if_false]
          rw [hrun2]
          simp [hfin]
      | true =>
          obtain ⟨nfm2, hrun2⟩ :=
            ih ⟨st.faces ++ newsFor scheme dataOf n entry f,
                nfm1 ++ [(n, ⟨n, ex1, f⟩)]⟩ hnd2
          refine ⟨nfm2, ?_⟩
          simp only [faceLoop, hrun1', if_true]
          rw [hrun2]
          simp [hfin]

/-- Running `populate_faces` on a duplicate-free expected workload
produces exactly `specFaces`. -/
theorem populate_faces_run :
    ∀ (topo : List (ι × (CubeFace → List ι))) (st : BState ι),
      (st.faces ++ specFaces scheme dataOf topo).Nodup →
      ∃ nfm', populate_faces scheme dataOf topo st
          = some ⟨st.faces ++ specFaces scheme dataOf topo, nfm'⟩ := by
  intro topo
  induction topo with
  | nil =>
      intro st _
      exact ⟨st.nfm, by simp [populate_faces, specFaces]⟩
  | cons p rest ih =>
      intro st hnd
      obtain ⟨n, entry⟩ := p
      by_cases hint : node_is_interior scheme (some (dataOf n)) = true
      · have hspec : specFaces scheme dataOf ((n, entry) :: rest)
            = (allCubeFaces.flatMap (newsFor scheme dataOf n entry))
              ++ specFaces scheme dataOf rest := by
          simp [specFaces, hint]
        rw [hspec] at hnd
        have hnd1 : (st.faces ++
            allCubeFaces.flatMap (newsFor scheme dataOf n entry)).Nodup :=
          hnd.sublist (List.Sublist.append_left
            (List.sublist_append_left _ _) _)
        obtain ⟨nfm1, hrun1⟩ :=
          faceLoop_run scheme dataOf n entry allCubeFaces st hnd1
        have hnd2 : ((st.faces ++
            allCubeFaces.flatMap (newsFor scheme dataOf n entry)) ++
            specFaces scheme dataOf rest).Nodup := by
          simpa using hnd
        obtain ⟨nfm2, hrun2⟩ := ih ⟨_, nfm1⟩ hnd2
        refine ⟨nfm2, ?_⟩
        simp only [populate_faces, hint, if_true, hrun1]
        rw [hrun2]
        simp [hspec]
      · rw [Bool.not_eq_true] at hint
        have hspec : specFaces scheme dataOf ((n, entry) :: rest)
            = specFaces scheme dataOf rest := by
          simp [specFaces, hint]
        rw [hspec] at hnd
        obtain ⟨nfm', hrun⟩ := ih st hnd
        refine ⟨nfm', ?_⟩
        simp only [populate_faces, hint, Bool.false_eq_true, if_false]
        rw [hrun, hspec]

end BoundaryProofs

end Geo

namespace Geo

section BoundarySpec

variable {ι : Type} (scheme : SegScheme) (dataOf : ι → Option OctData)

/-- Every face produced while scanning direction `f` of node `n` has that
node as interior and that direction. -/
theorem newsOf_shape {n : ι} {f : CubeFace} {es : List (Option ι)}
    {F : NodeFace ι} (h : F ∈ newsOf scheme dataOf n f es) :
    F.interior = n ∧ F.direction = f ∧
      F.exterior ∈ es ∧
      node_is_interior scheme (F.exterior.map dataOf) = false := by
  simp only [newsOf, List.mem_filterMap] at h
  obtain ⟨e, he, hFe⟩ := h
  by_cases hie : node_is_interior scheme (e.map dataOf) = true
  · rw [if_pos hie] at hFe
    cases hFe
  · rw [Bool.not_eq_true] at hie
    rw [if_neg (by simp [hie])] at hFe
    injection hFe with hFe
    subst hFe
    exact ⟨rfl, rfl, he, hie⟩

theorem mem_newsOf {n : ι} {f : CubeFace} {es : List (Option ι)}
    {e : Option ι} (he : e ∈ es)
    (hie : node_is_interior scheme (e.map dataOf) = false) :
    (⟨n, e, f⟩ : NodeFace ι) ∈ newsOf scheme dataOf n f es := by
  simp only [newsOf, List.mem_filterMap]
  exact ⟨e, he, by rw [if_neg (by simp [hie])]⟩

/-- Membership in the expected face list, in the claim's terms. -/
theorem mem_specFaces {topo : List (ι × (CubeFace → List ι))}
    {F : NodeFace ι} :
    F ∈ specFaces scheme dataOf topo ↔
      ∃ p ∈ topo, p.1 = F.interior ∧
        node_is_interior scheme (some (dataOf F.interior)) = true ∧
        F.exterior ∈ nlistOf (p.2 F.direction) ∧
        node_is_interior scheme (F.exterior.map dataOf) = false := by
  simp only [specFaces, List.mem_flatMap]
  constructor
  · rintro ⟨p, hp, hF⟩
    by_cases hint : node_is_interior scheme (some (dataOf p.1)) = true
    · rw [if_pos hint] at hF
      simp only [List.mem_flatMap] at hF
      obtain ⟨f, _, hF⟩ := hF
      rw [newsFor_eq_newsOf] at hF
      obtain ⟨hFi, hFd, hFe, hFext⟩ := newsOf_shape scheme dataOf hF
      refine ⟨p, hp, hFi.symm, ?_, ?_, hFext⟩
      · rw [← hFi] at hint
        exact hint
      · rw [hFd]
        exact hFe
    · rw [if_neg hint] at hF
      cases hF
  · rintro ⟨p, hp, h1, h2, h3, h4⟩
    refine ⟨p, hp, ?_⟩
    rw [h1, if_pos h2]
    simp only [List.mem_flatMap]
    refine ⟨F.direction, by cases F.direction <;> simp [allCubeFaces], ?_⟩
    rw [newsFor_eq_newsOf]
    have := mem_newsOf scheme dataOf (n := F.interior) (f := F.direction)
      h3 h4
    simpa using this

/-- The expected face list is duplicate-free when the topology keys are
distinct and every neighbor set is duplicate-free. -/
theorem specFaces_nodup {topo : List (ι × (CubeFace → List ι))}
    (hkeys : topo.Pairwise fun p q => p.1 ≠ q.1)
    (hnb : ∀ p ∈ topo, ∀ f, (p.2 f).Nodup) :
    (specFaces scheme dataOf topo).Nodup := by
  rw [specFaces, List.nodup_flatMap]
  constructor
  · intro p hp
    by_cases hint : node_is_interior scheme (some (dataOf p.1)) = true
    · rw [if_pos hint, List.nodup_flatMap]
      constructor
      · intro f _
        rw [newsFor_eq_newsOf, newsOf]
        apply List.Nodup.filterMap
        · intro a a' b hb hb'
          by_cases hia : node_is_interior scheme (a.map dataOf) = true
          · rw [if_pos hia] at hb
            cases hb
          · by_cases hia' : node_is_interior scheme (a'.map dataOf) = true
            · rw [if_pos hia'] at hb'
              cases hb'
            · rw [if_neg hia] at hb
              rw [if_neg hia'] at hb'
              rw [Option.mem_some_iff] at hb hb'
              exact congrArg NodeFace.exterior (hb.trans hb'.symm)
        · rw [nlistOf]
          by_cases hemp : (p.2 f).isEmpty
          · rw [if_pos hemp]
            exact List.nodup_singleton none
          · rw [if_neg hemp]
            exact (hnb p hp f).map (Option.some_injective ι)
      · have hfaces : (allCubeFaces).Pairwise (· ≠ ·) := by decide
        refine hfaces.imp ?_
        intro f f' hne
        intro F hF hF'
        simp only [Set.mem_def] at hF hF'
        rw [newsFor_eq_newsOf] at hF hF'
        have h1 := (newsOf_shape scheme dataOf hF).2.1
        have h2 := (newsOf_shape scheme dataOf hF').2.1
        exact hne (h1 ▸ h2 ▸ rfl)
    · rw [if_neg hint]
      exact List.nodup_nil
  · refine hkeys.imp ?_
    intro p q hne
    intro F hF hF'
    simp only [Set.mem_def] at hF hF'
    by_cases hip : node_is_interior scheme (some (dataOf p.1)) = true
    · by_cases hiq : node_is_interior scheme (some (dataOf q.1)) = true
      · rw [if_pos hip] at hF
        rw [if_pos hiq] at hF'
        simp only [List.mem_flatMap] at hF hF'
        obtain ⟨f, _, hF⟩ := hF
        obtain ⟨f', _, hF'⟩ := hF'
        rw [newsFor_eq_newsOf] at hF hF'
        have h1 := (newsOf_shape scheme dataOf hF).1
        have h2 := (newsOf_shape scheme dataOf hF').1
        exact hne (h1 ▸ h2 ▸ rfl)
      · rw [if_neg hiq] at hF'
        cases hF'
    · rw [if_neg hip] at hF
      cases hF

end BoundarySpec

end Geo

namespace Geo

/-- A leaf inside room 0 with probability 0.9: interior under `OBJECTS`. -/
def dObj : OctData := ⟨1, 1, 9/10, 81/100, 0, 0, 0, 0, false⟩

/-- A one-node topology whose node has no neighbor on any face. -/
def topo1 : List (ℕ × (CubeFace → List ℕ)) := [(0, fun _ => [])]

def data1 : ℕ → Option OctData := fun _ => some dObj

/-- C3 counterexample: under the `OBJECTS` scheme an interior leaf whose
neighbor sets are all empty produces **no** boundary face at all — the
absent neighbor is scanned as the NULL node, which `OBJECTS` classifies as
interior (node_boundary.cpp 99-100), so the claimed per-(leaf, face,
absent) emission does not happen. -/
theorem C3_populate_faces_counterexample :
    populate_faces .objects data1 topo1 ⟨[], []⟩ = some ⟨[], []⟩ ∧
    node_is_interior .objects (some (data1 0)) = true ∧
    topo1.map Prod.fst = [0] ∧
    (∀ p ∈ topo1, ∀ f, p.2 f = ([] : List ℕ)) ∧
    node_is_interior .objects none = true := by
  refine ⟨?_, ?_, rfl, ?_, rfl⟩
  · norm_num [populate_faces, faceLoop, neighLoop, nlistOf, allCubeFaces,
      node_is_interior, data1, topo1, dObj, OctData.is_interior,
      OctData.get_probability, OctData.unobservedProbability]
  · norm_num [node_is_interior, data1, dObj, OctData.is_interior,
      OctData.get_probability, OctData.unobservedProbability]
  · intro p hp f
    simp only [topo1, List.mem_singleton] at hp
    subst hp
    rfl

/-- C3 (amended): `populate_faces` succeeds on any topology with distinct
keys and duplicate-free neighbor sets, and the emitted face map contains
exactly one face for every (node, direction, scanned neighbor) combination
in which the node passes the scheme's `is_interior` predicate and the
scanned neighbor — an actual neighbor, or the NULL node when the face's
neighbor set is empty — fails it.  (NULL is classified by the scheme
itself: exterior under `ALL` and `ROOM`, interior under `OBJECTS`.)
Consequently every emitted face has an interior leaf that is interior
under the scheme and an exterior node that is not. -/
theorem C3_populate_faces_characterization {ι : Type} [DecidableEq ι]
    (scheme : SegScheme) (dataOf : ι → Option OctData)
    (topo : List (ι × (CubeFace → List ι)))
    (hkeys : topo.Pairwise fun p q => p.1 ≠ q.1)
    (hnb : ∀ p ∈ topo, ∀ f, (p.2 f).Nodup) :
    ∃ st, populate_faces scheme dataOf topo ⟨[], []⟩ = some st ∧
      st.faces.Nodup ∧
      (∀ F, F ∈ st.faces ↔
        ∃ p ∈ topo, p.1 = F.interior ∧
          node_is_interior scheme (some (dataOf F.interior)) = true ∧
          F.exterior ∈ nlistOf (p.2 F.direction) ∧
          node_is_interior scheme (F.exterior.map dataOf) = false) ∧
      (∀ F ∈ st.faces,
          node_is_interior scheme (some (dataOf F.interior)) = true ∧
          node_is_interior scheme (F.exterior.map dataOf) = false) := by
  have hnd : (([] : List (NodeFace ι)) ++ specFaces scheme dataOf topo).Nodup := by
    simpa using specFaces_nodup scheme dataOf hkeys hnb
  obtain ⟨nfm', hrun⟩ := populate_faces_run scheme dataOf topo ⟨[], []⟩ hnd
  refine ⟨⟨specFaces scheme dataOf topo, nfm'⟩, by simpa using hrun, ?_, ?_, ?_⟩
  · simpa using hnd
  · intro F
    exact mem_specFaces scheme dataOf
  · intro F hF
    obtain ⟨p, _, h1, h2, _, h4⟩ :=
      (mem_specFaces scheme dataOf).mp hF
    exact ⟨h2, h4⟩

/-- A two-node topology: node 0 (interior) has node 1 (exterior) on its
+x face; all other neighbor sets are empty. -/
def topoW : List (ℕ × (CubeFace → List ℕ)) :=
  [(0, fun f => if f = .xplus then [1] else []),
   (1, fun f => if f = .xminus then [0] else [])]

def dataW : ℕ → Option OctData :=
  fun n => if n = 0 then some ⟨1, 1, 9/10, 81/100, 0, 0, 0, -1, false⟩
           else some ⟨1, 1, 1/10, 1/100, 0, 0, 0, -1, false⟩

/-- C3 witness: the characterization applied to the concrete two-node
topology, with both hypotheses discharged there. -/
theorem C3_populate_faces_characterization_witness :
    (topoW.Pairwise fun p q => p.1 ≠ q.1) ∧
    (∀ p ∈ topoW, ∀ f, (p.2 f).Nodup) ∧
    (∃ st, populate_faces .all dataW topoW ⟨[], []⟩ = some st ∧
      st.faces.Nodup ∧
      (∀ F, F ∈ st.faces ↔
        ∃ p ∈ topoW, p.1 = F.interior ∧
          node_is_interior .all (some (dataW F.interior)) = true ∧
          F.exterior ∈ nlistOf (p.2 F.direction) ∧
          node_is_interior .all (F.exterior.map dataW) = false) ∧
      (∀ F ∈ st.faces,
          node_is_interior .all (some (dataW F.interior)) = true ∧
          node_is_interior .all (F.exterior.map dataW) = false)) := by
  have h1 : topoW.Pairwise fun p q => p.1 ≠ q.1 := by
    simp [topoW]
  have h2 : ∀ p ∈ topoW, ∀ f, (p.2 f).Nodup := by
    intro p hp f
    simp only [topoW, List.mem_cons, List.mem_singleton] at hp
    rcases hp with h | h | h
    · subst h; by_cases hf : f = CubeFace.xplus <;> simp [hf]
    · subst h; by_cases hf : f = CubeFace.xminus <;> simp [hf]
    · cases h
  exact ⟨h1, h2, C3_populate_faces_characterization .all dataW topoW h1 h2⟩

end Geo

namespace Geo

/-! ## Vertex snapping (`mesher_t::compute_vertex_pos`,
region_mesher.cpp 243-340)

The Eigen `JacobiSVD` is an external collaborator: the embedding takes the
factors `U`, `S`, `V` it returns as parameters, constrained by the defining
properties of a (thin-U, full-V) singular value decomposition of the
normal matrix `N`.  The claim concerns a vertex incident on exactly two
planes, so `N` has two rows. -/

/-- The 2×3 matrix holding the singular values on its diagonal. -/
def Smat (S : Fin 2 → ℚ) : Matrix (Fin 2) (Fin 3) ℚ :=
  Matrix.of fun i j => if (i : ℕ) = (j : ℕ) then S i else 0

/-- The normal matrix of the two planes of the claim's scenario:
rows `(1,0,0)` and `(0,1,0)`. -/
def Nmat : Matrix (Fin 2) (Fin 3) ℚ := !![1, 0, 0; 0, 1, 0]

/-- The loop variable `s = (S.rows() <= (int) i) ? 0.0 : S(i)`
(region_mesher.cpp 312). -/
def scol (S : Fin 2 → ℚ) (i : Fin 3) : ℚ :=
  if h : (i : ℕ) < 2 then S ⟨i, h⟩ else 0

/-- The column `U.block(0,i,num_regions,1)` read in the least-squares
branch (region_mesher.cpp 330); reading past the two columns of the thin
`U` is out of bounds in Eigen and modelled as zero (that branch is never
taken for `i ≥ 2` when the threshold is positive, since `s = 0` falls in
the kernel branch). -/
def ucol (U : Matrix (Fin 2) (Fin 2) ℚ) (i : Fin 3) : Fin 2 → ℚ :=
  fun a => if h : (i : ℕ) < 2 then U a ⟨i, h⟩ else 0

/-- `mesher_t::compute_vertex_pos` for a vertex on two regions: iterate
over the three basis vectors `v_i` (columns of `V`); if the singular value
is below `threshold = min_singular_value · S(0)` the original corner
position is preserved along `v_i`, otherwise the least-squares
contribution `(P·u_i / s) v_i` is added (region_mesher.cpp 300-333). -/
def computeVertexPos (U : Matrix (Fin 2) (Fin 2) ℚ) (S : Fin 2 → ℚ)
    (V : Matrix (Fin 3) (Fin 3) ℚ) (P : Fin 2 → ℚ) (p0 : Fin 3 → ℚ)
    (minSV : ℚ) : Fin 3 → ℚ :=
  let thresh := minSV * S 0
  ∑ i : Fin 3,
    (if scol S i < thresh then
      (Matrix.dotProduct p0 (fun j => V j i)) • (fun j => V j i)
    else
      (Matrix.dotProduct P (ucol U i) / scol S i) • (fun j => V j i))

end Geo

namespace Geo

/-- C8: vertex snapping for a vertex on exactly the two planes with
normals `(1,0,0)`, `(0,1,0)` and offsets 3, 5.  For *any* SVD
`N = U·S·Vᵀ` of the normal matrix (orthogonal `U`, `V`, singular values
in decreasing order) and any `min_singular_value` in `(0, 1]`, the loop of
`compute_vertex_pos` takes the least-squares contribution along the two
basis directions whose singular value reaches
`threshold = min_singular_value · σ₁` and preserves the initial corner
`(2.9, 5.1, 7.3)` along the kernel direction, producing `(3, 5, 7.3)`. -/
theorem C8_two_plane_vertex_snap (U : Matrix (Fin 2) (Fin 2) ℚ)
    (S : Fin 2 → ℚ) (V : Matrix (Fin 3) (Fin 3) ℚ) (minSV : ℚ)
    (hU : U.transpose * U = 1) (hV : V.transpose * V = 1)
    (hSVD : U * Smat S * V.transpose = Nmat)
    (hS01 : S 1 ≤ S 0) (hS1 : 0 ≤ S 1)
    (hm1 : 0 < minSV) (hm2 : minSV ≤ 1) :
    computeVertexPos U S V ![3, 5] ![29/10, 51/10, 73/10] minSV
      = ![3, 5, 73/10] := by
  have hUUT : U * U.transpose = 1 := Matrix.mul_eq_one_comm.mp hU
  have hVVT : V * V.transpose = 1 := Matrix.mul_eq_one_comm.mp hV
  have hNNT : Nmat * Nmat.transpose = 1 := by
    ext a b
    fin_cases a <;> fin_cases b <;>
      simp [Nmat, Matrix.mul_apply, Fin.sum_univ_succ, Matrix.one_apply,
        Matrix.transpose_apply, Matrix.vecHead, Matrix.vecTail]
  have hD : U * (Smat S * (Smat S).transpose) * U.transpose = 1 := by
    have h1 : (U * Smat S * V.transpose) * (U * Smat S * V.transpose).transpose
        = U * (Smat S * (Smat S).transpose) * U.transpose := by
      rw [Matrix.transpose_mul, Matrix.transpose_mul, Matrix.transpose_transpose]
      calc U * Smat S * V.transpose * (V * ((Smat S).transpose * U.transpose))
          = U * (Smat S * (V.transpose * (V * ((Smat S).transpose
              * U.transpose)))) := by
            simp only [Matrix.mul_assoc]
        _ = U * (Smat S * ((Smat S).transpose * U.transpose)) := by
            rw [← Matrix.mul_assoc V.transpose V, hV, Matrix.one_mul]
        _ = U * (Smat S * (Smat S).transpose) * U.transpose := by
            simp only [Matrix.mul_assoc]
    rw [← h1, hSVD, hNNT]
  have hDval : Smat S * (Smat S).transpose = 1 := by
    calc Smat S * (Smat S).transpose
        = (U.transpose * U) * (Smat S * (Smat S).transpose)
            * (U.transpose * U) := by
          rw [hU]
          simp
      _ = U.transpose * (U * (Smat S * (Smat S).transpose) * U.transpose)
            * U := by
          simp only [Matrix.mul_assoc]
      _ = U.transpose * 1 * U := by rw [hD]
      _ = 1 := by rw [Matrix.mul_one, hU]
  have hS0sq : S 0 * S 0 = 1 := by
    have h := congrArg (fun M => M 0 0) hDval
    simpa [Smat, Matrix.mul_apply, Fin.sum_univ_succ, Matrix.transpose_apply,
      Matrix.one_apply] using h
  have hS1sq : S 1 * S 1 = 1 := by
    have h := congrArg (fun M => M 1 1) hDval
    simpa [Smat, Matrix.mul_apply, Fin.sum_univ_succ, Matrix.transpose_apply,
      Matrix.one_apply] using h
  have hS0pos : 0 ≤ S 0 := le_trans hS1 hS01
  have h0 : S 0 = 1 := by
    have hfac : (S 0 - 1) * (S 0 + 1) = 0 := by linear_combination hS0sq
    rcases mul_eq_zero.mp hfac with h | h
    · linarith
    · linarith
  have h1 : S 1 = 1 := by
    have hfac : (S 1 - 1) * (S 1 + 1) = 0 := by linear_combination hS1sq
    rcases mul_eq_zero.mp hfac with h | h
    · linarith
    · linarith
  -- the entries of the factorization with the singular values solved
  have hNe : ∀ a j, U a 0 * V j 0 + U a 1 * V j 1 = Nmat a j := by
    intro a j
    have h := congrArg (fun M => M a j) hSVD
    simp only [Matrix.mul_apply, Matrix.transpose_apply, Smat, Matrix.of_apply,
      Fin.sum_univ_three, Fin.sum_univ_two] at h
    norm_num at h
    rw [h0, h1] at h
    linear_combination h
  -- columns of V are an orthonormal basis (rows of V·Vᵀ)
  have hVe : ∀ j k, V j 0 * V k 0 + V j 1 * V k 1 + V j 2 * V k 2
      = (1 : Matrix (Fin 3) (Fin 3) ℚ) j k := by
    intro j k
    have h := congrArg (fun M => M j k) hVVT
    simp only [Matrix.mul_apply, Matrix.transpose_apply,
      Fin.sum_univ_three] at h
    linear_combination h
  have hM : Nmat.transpose * Nmat = V * ((Smat S).transpose * Smat S)
      * V.transpose := by
    rw [← hSVD]
    rw [Matrix.transpose_mul, Matrix.transpose_mul, Matrix.transpose_transpose]
    calc V * ((Smat S).transpose * U.transpose) * (U * Smat S * V.transpose)
        = V * ((Smat S).transpose * ((U.transpose * U)
            * (Smat S * V.transpose))) := by
          simp only [Matrix.mul_assoc]
      _ = V * ((Smat S).transpose * (Smat S * V.transpose)) := by
          rw [hU, Matrix.one_mul]
      _ = V * ((Smat S).transpose * Smat S) * V.transpose := by
          simp only [Matrix.mul_assoc]
  have hMe : ∀ j k, V j 0 * V k 0 + V j 1 * V k 1
      = Nmat 0 j * Nmat 0 k + Nmat 1 j * Nmat 1 k := by
    intro j k
    have h := congrArg (fun M => M j k) hM
    simp only [Matrix.mul_apply, Matrix.transpose_apply, Smat, Matrix.of_apply,
      Fin.sum_univ_three, Fin.sum_univ_two] at h
    norm_num at h
    rw [h0, h1] at h
    linear_combination -h
  -- the third column of V is (up to sign) the z axis
  have hV02 : V 0 2 = 0 := by
    have hsq : V 0 2 * V 0 2 = 0 := by
      have ha := hVe 0 0
      have hb := hMe 0 0
      norm_num [Nmat] at hb
      simp only [Matrix.one_apply_eq] at ha
      linear_combination ha - hb
    exact mul_self_eq_zero.mp hsq
  have hV12 : V 1 2 = 0 := by
    have hsq : V 1 2 * V 1 2 = 0 := by
      have ha := hVe 1 1
      have hb := hMe 1 1
      norm_num [Nmat, Matrix.vecHead, Matrix.vecTail] at hb
      simp only [Matrix.one_apply_eq] at ha
      linear_combination ha - hb
    exact mul_self_eq_zero.mp hsq
  have hV22sq : V 2 2 * V 2 2 = 1 := by
    have ha := hVe 2 2
    have hb := hMe 2 2
    norm_num [Nmat, Matrix.vecHead, Matrix.vecTail] at hb
    simp only [Matrix.one_apply_eq] at ha
    linear_combination ha - hb
  -- the six entry equations of the factorization, concretely
  have e00 : U 0 0 * V 0 0 + U 0 1 * V 0 1 = 1 := by
    have := hNe 0 0
    simpa [Nmat] using this
  have e10 : U 1 0 * V 0 0 + U 1 1 * V 0 1 = 0 := by
    have := hNe 1 0
    simpa [Nmat, Matrix.vecHead, Matrix.vecTail] using this
  have e01 : U 0 0 * V 1 0 + U 0 1 * V 1 1 = 0 := by
    have := hNe 0 1
    simpa [Nmat, Matrix.vecHead, Matrix.vecTail] using this
  have e11 : U 1 0 * V 1 0 + U 1 1 * V 1 1 = 1 := by
    have := hNe 1 1
    simpa [Nmat, Matrix.vecHead, Matrix.vecTail] using this
  have e02 : U 0 0 * V 2 0 + U 0 1 * V 2 1 = 0 := by
    have := hNe 0 2
    simpa [Nmat, Matrix.vecHead, Matrix.vecTail] using this
  have e12 : U 1 0 * V 2 0 + U 1 1 * V 2 1 = 0 := by
    have := hNe 1 2
    simpa [Nmat, Matrix.vecHead, Matrix.vecTail] using this
  -- evaluate the loop
  have hth : minSV * S 0 = minSV := by rw [h0, mul_one]
  have hs0 : scol S 0 = 1 := by rw [scol]; norm_num [h0]
  have hs1 : scol S 1 = 1 := by rw [scol]; norm_num [h1]
  have hs2 : scol S 2 = 0 := by rw [scol]; norm_num
  funext j
  rw [computeVertexPos]
  simp only [hth, Fin.sum_univ_three, hs0, hs1, hs2,
    if_neg (not_lt.mpr hm2), if_pos hm1]
  simp only [Matrix.dotProduct, ucol, Fin.sum_univ_three, Fin.sum_univ_two,
    Finset.sum_apply, Pi.smul_apply, smul_eq_mul]
  norm_num [Matrix.vecHead, Matrix.vecTail]
  have hmk0 : (⟨0, by omega⟩ : Fin 3) = 0 := rfl
  have hmk1 : (⟨1, by omega⟩ : Fin 3) = 1 := rfl
  have hmk2 : (⟨2, by omega⟩ : Fin 3) = 2 := rfl
  fin_cases j
  · norm_num [Matrix.vecHead, Matrix.vecTail]
    simp only [hmk0, hmk1, hmk2]
    rw [hV02]
    linear_combination (3 : ℚ) * e00 + 5 * e10
  · norm_num [Matrix.vecHead, Matrix.vecTail]
    simp only [hmk0, hmk1, hmk2]
    rw [hV12]
    linear_combination (3 : ℚ) * e01 + 5 * e11
  · norm_num [Matrix.vecHead, Matrix.vecTail]
    simp only [hmk0, hmk1, hmk2]
    rw [hV02, hV12]
    linear_combination (3 : ℚ) * e02 + 5 * e12 + (73/10) * hV22sq

end Geo

namespace Geo

/-- C8 witness: the snap theorem at the concrete SVD `U = 1`, `S = (1,1)`,
`V = 1` of the normal matrix, with `min_singular_value = 0.1`. -/
theorem C8_two_plane_vertex_snap_witness :
    ((1 : Matrix (Fin 2) (Fin 2) ℚ).transpose * 1 = 1) ∧
    ((1 : Matrix (Fin 3) (Fin 3) ℚ).transpose * 1 = 1) ∧
    ((1 : Matrix (Fin 2) (Fin 2) ℚ) * Smat ![1, 1]
        * (1 : Matrix (Fin 3) (Fin 3) ℚ).transpose = Nmat) ∧
    computeVertexPos 1 ![1, 1] 1 ![3, 5] ![29/10, 51/10, 73/10] (1/10)
      = ![3, 5, 73/10] := by
  have hU : (1 : Matrix (Fin 2) (Fin 2) ℚ).transpose * 1 = 1 := by simp
  have hV : (1 : Matrix (Fin 3) (Fin 3) ℚ).transpose * 1 = 1 := by simp
  have hSVD : (1 : Matrix (Fin 2) (Fin 2) ℚ) * Smat ![1, 1]
      * (1 : Matrix (Fin 3) (Fin 3) ℚ).transpose = Nmat := by
    ext a b
    fin_cases a <;> fin_cases b <;>
      simp [Smat, Nmat, Matrix.vecHead, Matrix.vecTail]
  refine ⟨hU, hV, hSVD, ?_⟩
  exact C8_two_plane_vertex_snap 1 ![1, 1] 1 (1/10) hU hV hSVD
    (by norm_num) (by norm_num) (by norm_num) (by norm_num)

end Geo

namespace Geo

/-! ## Planar-region graph (planar_region.cpp / planar_region_graph.cpp)

Boundary faces are abstract identifiers `ι`; face centers live in an
abstract type `γ` and fitted planes in an abstract type `π`, because the
plane type (`geometry/shapes/plane.h`) is not among the sources.  The
environment record collects everything the region code reads from the
boundary and from the plane library. -/

/-- What `planar_region_graph_t` reads from the `node_boundary_t` and from
the plane library.  `planeFit` and `errTerm` are modelled from the spec:
`plane_t::fit` ("the pair's plane is the least-squares plane fit of the
union of all face centers") and the normalized distance
`plane.distance_to(center)/sqrt(var)` live in `geometry/shapes/plane.h`,
which is not part of the sources, so they are abstract parameters here. -/
structure RegionEnv (ι γ π : Type) where
  faces : Finset ι
  nbrs : ι → List ι
  planarity : ι → ℚ
  direction : ι → CubeFace
  center : ι → γ
  variance : ι → ℚ
  seedPlane : ι → π
  planeFit : List γ → π
  errTerm : π → γ → ℚ → ℚ

/-- `planar_region_info_t` together with its `planar_region_t`: the face
set, the fitted plane, the neighboring regions' seeds (a `std::set`,
modelled as its sorted element list), and the cached face centers and
position variances. -/
structure RegionInfo (ι γ π : Type) where
  region : Finset ι
  plane : π
  neighbor_seeds : List ι
  centers : List γ
  variances : List ℚ

/-- The `planar_region_graph_t` state: the `regions` map (key list in
iteration order plus contents) and the face→seed index `seeds`. -/
structure RGState (ι γ π : Type) where
  keyOrder : List ι
  info : ι → Option (RegionInfo ι γ π)
  seeds : ι → Option ι

/-- `planar_region_pair_t` (planar_region.h): two region seeds, the fitted
plane, the pair's maximum normalized error and the cached face count. -/
structure RegionPair (ι π : Type) where
  first : ι
  second : ι
  plane : π
  max_err : ℚ
  num_faces : ℕ

variable {ι γ π : Type} [DecidableEq ι]

/-- The queue-driven part of `planar_region_t::floodfill`
(planar_region.cpp 66-89): pop, skip blacklisted faces, faces of the wrong
direction, and faces below the planarity threshold; otherwise add the face
to the region and blacklist and enqueue its neighbors. -/
def floodLoop [Fintype ι] (E : RegionEnv ι γ π) (seeddir : CubeFace)
    (planethresh : ℚ) :
    List ι → Finset ι → Finset ι → Finset ι × Finset ι
  | [], region, blacklist => (region, blacklist)
  | q :: rest, region, blacklist =>
    if hq : q ∈ blacklist then
      floodLoop E seeddir planethresh rest region blacklist
    else if E.direction q ≠ seeddir then
      floodLoop E seeddir planethresh rest region blacklist
    else if E.planarity q < planethresh then
      floodLoop E seeddir planethresh rest region blacklist
    else
      floodLoop E seeddir planethresh (rest ++ E.nbrs q)
        (insert q region) (insert q blacklist)
  termination_by q region blacklist =>
    ((Finset.univ \ blacklist).card, q.length)
  decreasing_by
    · exact Prod.Lex.right _ (by simp [List.length_cons])
    · exact Prod.Lex.right _ (by simp [List.length_cons])
    · exact Prod.Lex.right _ (by simp [List.length_cons])
    · apply Prod.Lex.left
      apply Finset.card_lt_card
      apply Finset.ssubset_iff_of_subset
        (Finset.sdiff_subset_sdiff (le_refl _) (Finset.subset_insert q _))
        |>.mpr
      exact ⟨q, by simp [hq]⟩

/-- `planar_region_t::floodfill` with an explicit planarity threshold
(planar_region.cpp 41-89): a seed failing the threshold forms a singleton
region; otherwise the flood fill runs from the seed. -/
def floodfill [Fintype ι] (E : RegionEnv ι γ π) (seed : ι)
    (blacklist : Finset ι) (planethresh : ℚ) : Finset ι × Finset ι :=
  if E.planarity seed < planethresh then
    ({seed}, insert seed blacklist)
  else
    floodLoop E (E.direction seed) planethresh [seed] ∅ blacklist

end Geo

namespace Geo

variable {ι γ π : Type} [LinearOrder ι]

/-- The region-formation loop of `planar_region_graph_t::populate`
(planar_region_graph.cpp 72-99): walk the boundary faces in map order;
every face not yet blacklisted seeds a new region via flood fill (with the
most lax planarity threshold 0.0, planar_region.cpp 33-39), which is
keyed by the seed (`-1` on a key conflict) and recorded in the face→seed
index for each of its faces. -/
def popLoop [Fintype ι] (E : RegionEnv ι γ π) :
    List ι → RGState ι γ π → Finset ι → Option (RGState ι γ π × Finset ι)
  | [], st, bl => some (st, bl)
  | f :: rest, st, bl =>
    if f ∈ bl then popLoop E rest st bl
    else
      let res := floodfill E f bl 0
      match st.info f with
      | some _ => none
      | none =>
          popLoop E rest
            ⟨st.keyOrder ++ [f],
             Function.update st.info f
               (some ⟨res.1, E.seedPlane f, [], [], []⟩),
             fun x => if x ∈ res.1 then some f else st.seeds x⟩
            res.2

/-- `std::set` insertion on the sorted-list model of a set: a no-op on a
present element, otherwise an order-preserving insert. -/
def osInsert (x : ι) (l : List ι) : List ι :=
  if x ∈ l then l else l.orderedInsert (· ≤ ·) x

/-- The innermost loop of the neighbor pass
(planar_region_graph.cpp 117-147): look every neighboring face up in the
seed index (error `-2` if absent) and record its seed when it differs from
the current region's. -/
def nbrScan (seeds : ι → Option ι) (rkey : ι) :
    List ι → List ι → Option (List ι)
  | [], acc => some acc
  | n :: ns, acc =>
    match seeds n with
    | none => none
    | some s =>
        if s = rkey then nbrScan seeds rkey ns acc
        else nbrScan seeds rkey ns (osInsert s acc)

/-- The per-region face loop of the neighbor pass
(planar_region_graph.cpp 110-148). -/
def faceScan (E : RegionEnv ι γ π) (seeds : ι → Option ι) (rkey : ι) :
    List ι → List ι → Option (List ι)
  | [], acc => some acc
  | fc :: fs, acc =>
    match nbrScan seeds rkey (E.nbrs fc) acc with
    | none => none
    | some acc' => faceScan E seeds rkey fs acc'

/-- The neighbor pass of `populate`
(planar_region_graph.cpp 107-149). -/
def nbrPass (E : RegionEnv ι γ π) :
    List ι → RGState ι γ π → Option (RGState ι γ π)
  | [], st => some st
  | r :: rest, st =>
    match st.info r with
    | none => none
    | some ri =>
        match faceScan E st.seeds r (ri.region.sort (· ≤ ·)) ri.neighbor_seeds with
        | none => none
        | some acc =>
            nbrPass E rest
              ⟨st.keyOrder,
               Function.update st.info r (some { ri with neighbor_seeds := acc }),
               st.seeds⟩

/-- `planar_region_graph_t::populate` (planar_region_graph.cpp 60-153);
`bfOrder` is the iteration order of the boundary's face map. -/
def rgPopulate [Fintype ι] (E : RegionEnv ι γ π) (bfOrder : List ι) :
    Option (RGState ι γ π) :=
  match popLoop E bfOrder ⟨[], fun _ => none, fun _ => none⟩ ∅ with
  | none => none
  | some (st, _) => nbrPass E st.keyOrder st

/-- `planar_region_t::find_face_centers` (planar_region.cpp 92-125):
both vectors are resized to `max(sizes) + n` — `resize` pads with
default-constructed entries `c0` / `0` — and the region's per-face centers
and variances are written after the existing entries. -/
def findFaceCenters (E : RegionEnv ι γ π) (R : Finset ι)
    (centers : List γ) (variances : List ℚ) (c0 : γ) :
    List γ × List ℚ :=
  let i := max centers.length variances.length
  (centers ++ List.replicate (i - centers.length) c0
      ++ (R.sort (· ≤ ·)).map E.center,
   variances ++ List.replicate (i - variances.length) 0
      ++ (R.sort (· ≤ ·)).map E.variance)

/-- The cache refresh of `compute_planefit`
(planar_region_graph.cpp 508-521): if the cached center count disagrees
with the face count, clear the centers (but not the variances) and refill
from the region. -/
def refreshCache (E : RegionEnv ι γ π) (c0 : γ) (ri : RegionInfo ι γ π) :
    RegionInfo ι γ π :=
  if ri.centers.length ≠ ri.region.card then
    let res := findFaceCenters E ri.region [] ri.variances c0
    { ri with centers := res.1, variances := res.2 }
  else ri

/-- `planar_region_graph_t::compute_planefit`
(planar_region_graph.cpp 488-550).  Note the source checks `fit` a second
time where it means `sit` (line 502), so a missing second region is
dereferenced unchecked; the embedding treats that as a failed evaluation.
Returns the state (with refreshed caches) and the rescored pair: fitted
plane over the concatenated centers, `num_faces` the center count, and
`max_err` the maximum of `distance/sqrt(variance)` over all centers. -/
def computePlanefit (E : RegionEnv ι γ π) (c0 : γ) (st : RGState ι γ π)
    (pair : RegionPair ι π) : Option (RGState ι γ π × RegionPair ι π) :=
  match st.info pair.first with
  | none => none
  | some fitInfo =>
    match st.info pair.second with
    | none => none
    | some sitInfo =>
      let fitInfo' := refreshCache E c0 fitInfo
      let sitInfo' := refreshCache E c0 sitInfo
      let st' : RGState ι γ π :=
        ⟨st.keyOrder,
         Function.update (Function.update st.info pair.first (some fitInfo'))
           pair.second (some sitInfo'),
         st.seeds⟩
      let centers := fitInfo'.centers ++ sitInfo'.centers
      let pl := E.planeFit centers
      let nf := fitInfo'.variances.length
      let errs := (List.range centers.length).map fun i =>
        E.errTerm pl (centers.getD i c0)
          (if nf ≤ i then sitInfo'.variances.getD (i - nf) 0
           else fitInfo'.variances.getD i 0)
      some (st', { pair with plane := pl,
                             max_err := errs.foldl max 0,
                             num_faces := centers.length })

/-- The neighbor-update loop of `merge_regions`
(planar_region_graph.cpp 580-601): every neighbor of the swallowed region
is looked up (error `-4` if missing); unless it is the surviving region it
is linked both ways with the survivor; in all cases the swallowed region
is removed from its neighbor set. -/
def mergeNbrLoop (first second : ι) :
    List ι → (ι → Option (RegionInfo ι γ π)) →
    Option (ι → Option (RegionInfo ι γ π))
  | [], info => some info
  | nbr :: ns, info =>
    match info nbr with
    | none => none
    | some ninfo =>
      if nbr ≠ first then
        match info first with
        | none => none
        | some finfo =>
          let info₁ := Function.update info first
            (some { finfo with neighbor_seeds := osInsert nbr finfo.neighbor_seeds })
          let ninfo₂ := { ninfo with
            neighbor_seeds := (osInsert first ninfo.neighbor_seeds).erase second }
          mergeNbrLoop first second ns (Function.update info₁ nbr (some ninfo₂))
      else
        let ninfo₂ := { ninfo with
          neighbor_seeds := ninfo.neighbor_seeds.erase second }
        mergeNbrLoop first second ns (Function.update info nbr (some ninfo₂))

/-- `planar_region_graph_t::merge_regions`
(planar_region_graph.cpp 552-619): move the second region's faces into the
first (updating the seed index), verify the pair's cached face count
against the merged region, rewire all neighbor links, append the cached
centers and variances, store the pair's plane on the survivor, and erase
the second region. -/
def merge_regions (st : RGState ι γ π) (pair : RegionPair ι π) :
    Option (RGState ι γ π) :=
  match st.info pair.first with
  | none => none
  | some fitInfo =>
    match st.info pair.second with
    | none => none
    | some sitInfo =>
      let fitInfo₁ := { fitInfo with region := fitInfo.region ∪ sitInfo.region }
      let seeds' := fun x =>
        if x ∈ sitInfo.region then some pair.first else st.seeds x
      if pair.num_faces ≠ fitInfo₁.region.card then none
      else
        match mergeNbrLoop pair.first pair.second
            sitInfo.neighbor_seeds
            (Function.update st.info pair.first (some fitInfo₁)) with
        | none => none
        | some info₂ =>
          match info₂ pair.first with
          | none => none
          | some fitInfo₂ =>
            some ⟨st.keyOrder.filter (· ≠ pair.second),
                  Function.update
                    (Function.update info₂ pair.first
                      (some { fitInfo₂ with
                        centers := fitInfo₂.centers ++ sitInfo.centers,
                        variances := fitInfo₂.variances ++ sitInfo.variances,
                        plane := pair.plane }))
                    pair.second none,
                  seeds'⟩

end Geo

namespace Geo

variable {ι γ π : Type} [LinearOrder ι]

/-- Modelled from the spec: the priority queue of region pairs pops the
pair with the smallest `max_err` (the comparator lives in the absent
planar_region.h).  `pqPop` returns the earliest minimal-error element and
the queue without it. -/
def pqPop : List (RegionPair ι π) → Option (RegionPair ι π × List (RegionPair ι π))
  | [] => none
  | [p] => some (p, [])
  | p :: q :: rest =>
    match pqPop (q :: rest) with
    | none => some (p, [])
    | some (m, rest') =>
        if m.max_err < p.max_err then some (m, p :: rest')
        else some (p, q :: rest)

/-- The queue-refill loop after a merge (planar_region_graph.cpp 238-251):
pair the surviving region with each of its current neighbors, rescore with
`compute_planefit` (propagating its errors), and push. -/
def pushLoop (E : RegionEnv ι γ π) (c0 : γ) (rkey : ι) :
    List ι → RGState ι γ π → List (RegionPair ι π) → RegionPair ι π →
    Option (RGState ι γ π × List (RegionPair ι π) × RegionPair ι π)
  | [], st, pq, pair => some (st, pq, pair)
  | nbr :: ns, st, pq, pair =>
    match computePlanefit E c0 st { pair with first := rkey, second := nbr } with
    | none => none
    | some (st', pair') => pushLoop E c0 rkey ns st' (pq ++ [pair']) pair'

/-- The main loop of `coalesce_regions`
(planar_region_graph.cpp 198-252), fuelled: pop the best pair; stop when
its `max_err` exceeds the distance threshold; skip pairs whose regions no
longer exist; if the cached face count disagrees with the current one,
rescore the pair in place; then merge it and push the survivor's new
neighbor pairs. -/
def coalesceLoop (E : RegionEnv ι γ π) (c0 : γ) (distthresh : ℚ) :
    ℕ → RGState ι γ π → List (RegionPair ι π) → Option (RGState ι γ π)
  | 0, _, _ => none
  | fuel+1, st, pq =>
    match pqPop pq with
    | none => some st
    | some (pair, pq') =>
      if distthresh < pair.max_err then some st
      else
        match st.info pair.first, st.info pair.second with
        | some fi, some si =>
          match (if fi.region.card + si.region.card ≠ pair.num_faces
                 then computePlanefit E c0 st pair
                 else some (st, pair)) with
          | none => none
          | some (st₁, pair₁) =>
            match merge_regions st₁ pair₁ with
            | none => none
            | some st₂ =>
              match st₂.info pair₁.first with
              | none => none
              | some fi₂ =>
                match pushLoop E c0 pair₁.first
                    fi₂.neighbor_seeds st₂ pq' pair₁ with
                | none => none
                | some (st₃, pq₃, _) => coalesceLoop E c0 distthresh fuel st₃ pq₃
        | _, _ => coalesceLoop E c0 distthresh fuel st pq'

/-- The queue-seeding inner loop of `coalesce_regions`
(planar_region_graph.cpp 169-190): skip neighbor seeds below the current
key (each bidirectional link is queued once), score the pair, push. -/
def initInner (E : RegionEnv ι γ π) (c0 : γ) (rkey : ι) :
    List ι → RGState ι γ π → List (RegionPair ι π) → RegionPair ι π →
    Option (RGState ι γ π × List (RegionPair ι π) × RegionPair ι π)
  | [], st, pq, pair => some (st, pq, pair)
  | nbr :: ns, st, pq, pair =>
    if nbr < rkey then initInner E c0 rkey ns st pq pair
    else
      match computePlanefit E c0 st { pair with first := rkey, second := nbr } with
      | none => none
      | some (st', pair') => initInner E c0 rkey ns st' (pq ++ [pair']) pair'

/-- The queue-seeding outer loop of `coalesce_regions`
(planar_region_graph.cpp 165-191), iterating the regions in map order. -/
def initLoop (E : RegionEnv ι γ π) (c0 : γ) :
    List ι → RGState ι γ π → List (RegionPair ι π) → RegionPair ι π →
    Option (RGState ι γ π × List (RegionPair ι π) × RegionPair ι π)
  | [], st, pq, pair => some (st, pq, pair)
  | r :: rest, st, pq, pair =>
    match st.info r with
    | none => none
    | some ri =>
      match initInner E c0 r ri.neighbor_seeds st pq pair with
      | none => none
      | some (st', pq', pair') => initLoop E c0 rest st' pq' pair'

/-- `planar_region_graph_t::coalesce_regions`
(planar_region_graph.cpp 155-257); `p0` is the default-constructed pair
variable and `st.keyOrder` the map iteration order. -/
def coalesce_regions (E : RegionEnv ι γ π) (c0 : γ) (p0 : RegionPair ι π)
    (distthresh : ℚ) (fuel : ℕ) (st : RGState ι γ π) :
    Option (RGState ι γ π) :=
  match initLoop E c0 st.keyOrder st [] p0 with
  | none => none
  | some (st', pq, _) => coalesceLoop E c0 distthresh fuel st' pq

/-- Modelled from the spec: the coalescence loop as the spec words it —
pop the best pair, abort if `max_err` exceeds the threshold, and when the
cached face count shows either region has been modified, rescore the pair
and RE-PUSH it onto the queue (merging only when it is popped again),
instead of merging immediately. -/
def specCoalesceLoop (E : RegionEnv ι γ π) (c0 : γ) (distthresh : ℚ) :
    ℕ → RGState ι γ π → List (RegionPair ι π) → Option (RGState ι γ π)
  | 0, _, _ => none
  | fuel+1, st, pq =>
    match pqPop pq with
    | none => some st
    | some (pair, pq') =>
      if distthresh < pair.max_err then some st
      else
        match st.info pair.first, st.info pair.second with
        | some fi, some si =>
          if fi.region.card + si.region.card ≠ pair.num_faces then
            match computePlanefit E c0 st pair with
            | none => none
            | some (st₁, pair₁) =>
                specCoalesceLoop E c0 distthresh fuel st₁ (pq' ++ [pair₁])
          else
            match merge_regions st pair with
            | none => none
            | some st₂ =>
              match st₂.info pair.first with
              | none => none
              | some fi₂ =>
                match pushLoop E c0 pair.first
                    fi₂.neighbor_seeds st₂ pq' pair with
                | none => none
                | some (st₃, pq₃, _) => specCoalesceLoop E c0 distthresh fuel st₃ pq₃
        | _, _ => specCoalesceLoop E c0 distthresh fuel st pq'

/-- The spec-worded coalescence pass as a whole (queue seeding as in the
code, then `specCoalesceLoop`). -/
def specCoalesce_regions (E : RegionEnv ι γ π) (c0 : γ) (p0 : RegionPair ι π)
    (distthresh : ℚ) (fuel : ℕ) (st : RGState ι γ π) :
    Option (RGState ι γ π) :=
  match initLoop E c0 st.keyOrder st [] p0 with
  | none => none
  | some (st', pq, _) => specCoalesceLoop E c0 distthresh fuel st' pq

end Geo

namespace Geo

/-! ## A concrete three-region coalescence scenario -/

/-- A three-face boundary: face 0 neighbors faces 1 and 2; planes are
lists of face centers, fitted by collection; the error term of a plane
over three or more centers is 10, otherwise the face's variance
(1, 2 or 3). -/
def E4 : RegionEnv (Fin 3) ℕ (List ℕ) where
  faces := Finset.univ
  nbrs := fun f => if f = 0 then [1, 2] else [0]
  planarity := fun _ => 1
  direction := fun f =>
    if f = 0 then CubeFace.xplus else if f = 1 then CubeFace.yplus
    else CubeFace.zplus
  center := fun f => (f : ℕ)
  variance := fun f => if f = 0 then 1 else if f = 1 then 2 else 3
  seedPlane := fun f => [(f : ℕ)]
  planeFit := id
  errTerm := fun p _ v => if 3 ≤ p.length then 10 else v

/-- The region graph over `E4` after population: three singleton regions
with consistent caches, region 0 neighboring regions 1 and 2. -/
def state4 : RGState (Fin 3) ℕ (List ℕ) where
  keyOrder := [0, 1, 2]
  info := fun r =>
    some ⟨{r}, [(r : ℕ)], if r = 0 then [1, 2] else [0],
          [(r : ℕ)], [if r = 0 then 1 else if r = 1 then 2 else 3]⟩
  seeds := fun f => some f

/-- The default-constructed pair variable of `coalesce_regions`. -/
def p04 : RegionPair (Fin 3) (List ℕ) := ⟨0, 0, [], 0, 0⟩

/-- C4: counterexample.  On the three-region boundary `state4` with
distance threshold 5, the code's coalescence loop is left holding a stale
pair (regions 0 and 2, scored 3 over 2 faces) after merging regions 0 and
1; it rescores that pair to error 10 — above the threshold — and
nevertheless merges it immediately, finishing with a single region.  The
loop as the claim words it (rescore and re-push, merging only after the
rescored pair is popped again and passes the threshold test) aborts at
error 10 and finishes with two regions, so the claim's description of the
loop is not the code's behavior. -/
theorem C4_coalesce_counterexample :
    (coalesce_regions E4 0 p04 5 10 state4).map RGState.keyOrder
      = some [0] ∧
    (specCoalesce_regions E4 0 p04 5 10 state4).map RGState.keyOrder
      = some [0, 2] := by
  constructor
  · decide
  · decide

/-- C4 (amended): the loop equations of `coalesce_regions`.  A popped
pair whose `max_err` exceeds the distance threshold aborts the loop (this
half of the claim is correct).  But a popped pair whose cached face count
disagrees with its regions' current face count is rescored in place and
the rescored pair fed STRAIGHT into `merge_regions` in the same
iteration — the rescored error is never compared against the threshold
and the pair is not re-pushed. -/
theorem C4_coalesce_loop_semantics {ι γ π : Type} [LinearOrder ι] :
    (∀ (E : RegionEnv ι γ π) (c0 : γ) (thresh : ℚ) (fuel : ℕ)
       (st : RGState ι γ π) (pq pq' : List (RegionPair ι π))
       (pair : RegionPair ι π),
       pqPop pq = some (pair, pq') →
       thresh < pair.max_err →
       coalesceLoop E c0 thresh (fuel + 1) st pq = some st) ∧
    (∀ (E : RegionEnv ι γ π) (c0 : γ) (thresh : ℚ) (fuel : ℕ)
       (st : RGState ι γ π) (pq pq' : List (RegionPair ι π))
       (pair : RegionPair ι π) (fi si : RegionInfo ι γ π),
       pqPop pq = some (pair, pq') →
       ¬ thresh < pair.max_err →
       st.info pair.first = some fi →
       st.info pair.second = some si →
       fi.region.card + si.region.card ≠ pair.num_faces →
       coalesceLoop E c0 thresh (fuel + 1) st pq
         = (computePlanefit E c0 st pair).bind fun sp =>
             (merge_regions sp.1 sp.2).bind fun st₂ =>
               (st₂.info sp.2.first).bind fun fi₂ =>
                 (pushLoop E c0 sp.2.first fi₂.neighbor_seeds st₂ pq'
                     sp.2).bind
                   fun r => coalesceLoop E c0 thresh fuel r.1 r.2.1) := by
  constructor
  · intro E c0 thresh fuel st pq pq' pair hpop hgt
    simp only [coalesceLoop, hpop, if_pos hgt]
  · intro E c0 thresh fuel st pq pq' pair fi si hpop hle hfi hsi hne
    simp only [coalesceLoop, hpop, if_neg hle, hfi, hsi, if_pos hne]
    cases hcp : computePlanefit E c0 st pair with
    | none => simp
    | some sp =>
      obtain ⟨st₁, pair₁⟩ := sp
      simp only [Option.some_bind]
      cases hmg : merge_regions st₁ pair₁ with
      | none => simp
      | some st₂ =>
        simp only [Option.some_bind]
        cases hfi₂ : st₂.info pair₁.first with
        | none => simp
        | some fi₂ =>
          simp only [Option.some_bind]
          cases hpush : pushLoop E c0 pair₁.first fi₂.neighbor_seeds
              st₂ pq' pair₁ with
          | none => simp
          | some r =>
            obtain ⟨st₃, pq₃, pr₃⟩ := r
            simp only [Option.some_bind]

/-- A two-face boundary used to exercise the stale-pair branch. -/
def EW : RegionEnv (Fin 2) ℕ (List ℕ) where
  faces := Finset.univ
  nbrs := fun _ => []
  planarity := fun _ => 1
  direction := fun _ => CubeFace.xplus
  center := fun f => (f : ℕ)
  variance := fun _ => 0
  seedPlane := fun f => [(f : ℕ)]
  planeFit := id
  errTerm := fun _ _ v => v

/-- The two singleton regions over `EW`, mutual neighbors. -/
def riW : Fin 2 → RegionInfo (Fin 2) ℕ (List ℕ) := fun r =>
  ⟨{r}, [(r : ℕ)], [1 - r], [(r : ℕ)], [0]⟩

/-- The two-region graph state over `EW`. -/
def stW : RGState (Fin 2) ℕ (List ℕ) :=
  ⟨[0, 1], fun r => some (riW r), fun f => some f⟩

/-- A pair of the two regions whose cached face count 5 is stale. -/
def pairW : RegionPair (Fin 2) (List ℕ) := ⟨0, 1, [], 0, 5⟩

/-- C4: witness.  The abort equation fires on a popped pair of error 10
against threshold 5; and the stale pair `pairW` (cached count 5 against
actual count 2) is rescored and merged in the very same iteration,
leaving a single region. -/
theorem C4_coalesce_loop_semantics_witness :
    coalesceLoop EW 0 5 1 stW [⟨0, 1, [], 10, 0⟩] = some stW ∧
    (coalesceLoop EW 0 5 2 stW [pairW]).map RGState.keyOrder
      = some [0] := by
  refine ⟨C4_coalesce_loop_semantics.1 EW 0 5 0 stW _ [] _ rfl (by decide),
    ?_⟩
  rw [C4_coalesce_loop_semantics.2 EW 0 5 1 stW [pairW] [] pairW
    (riW 0) (riW 1) rfl (by decide) rfl rfl (by decide)]
  decide

end Geo

namespace Geo

variable {ι γ π : Type} [LinearOrder ι] [Fintype ι]

/-- The partition invariant claimed of the region graph: region face-sets
are pairwise disjoint, their union is exactly the boundary faces, and the
face→seed index maps every boundary face to a region containing it. -/
def RGInv (E : RegionEnv ι γ π) (st : RGState ι γ π) : Prop :=
  (∀ r s ri si, st.info r = some ri → st.info s = some si → r ≠ s →
      Disjoint ri.region si.region) ∧
  (∀ f, f ∈ E.faces ↔ ∃ r ri, st.info r = some ri ∧ f ∈ ri.region) ∧
  (∀ f ∈ E.faces, ∃ r ri, st.seeds f = some r ∧ st.info r = some ri ∧
      f ∈ ri.region)

/-- Relative to a starting blacklist `bl0`, the flood-fill loop only ever
grows the region and blacklist together: afterwards the blacklist is
`bl0` plus the region, and everything added is a boundary face that was
not blacklisted before. -/
theorem floodLoop_spec (E : RegionEnv ι γ π) (seeddir : CubeFace) (pt : ℚ)
    (hcl : ∀ f ∈ E.faces, ∀ n ∈ E.nbrs f, n ∈ E.faces) (bl0 : Finset ι) :
    ∀ (q : List ι) (region bl : Finset ι),
      (∀ x ∈ q, x ∈ E.faces) →
      (∀ x, x ∈ bl ↔ x ∈ bl0 ∨ x ∈ region) →
      (∀ x ∈ region, x ∈ E.faces ∧ x ∉ bl0) →
      (∀ x, x ∈ (floodLoop E seeddir pt q region bl).2 ↔
          x ∈ bl0 ∨ x ∈ (floodLoop E seeddir pt q region bl).1) ∧
      (∀ x ∈ (floodLoop E seeddir pt q region bl).1,
          x ∈ E.faces ∧ x ∉ bl0) ∧
      region ⊆ (floodLoop E seeddir pt q region bl).1 := by
  intro q region bl
  induction q, region, bl using floodLoop.induct E seeddir pt with
  | case1 region bl =>
    intro _ hbl hreg
    simp only [floodLoop]
    exact ⟨hbl, hreg, le_refl _⟩
  | case2 q rest region bl hq ih =>
    intro hq' hbl hreg
    simp only [floodLoop, dif_pos hq]
    exact ih (fun x hx => hq' x (List.mem_cons_of_mem q hx)) hbl hreg
  | case3 q rest region bl hq hdir ih =>
    intro hq' hbl hreg
    simp only [floodLoop, dif_neg hq, if_pos hdir]
    exact ih (fun x hx => hq' x (List.mem_cons_of_mem q hx)) hbl hreg
  | case4 q rest region bl hq hdir hpl ih =>
    intro hq' hbl hreg
    simp only [floodLoop, dif_neg hq, if_neg hdir, if_pos hpl]
    exact ih (fun x hx => hq' x (List.mem_cons_of_mem q hx)) hbl hreg
  | case5 q rest region bl hq hdir hpl ih =>
    intro hq' hbl hreg
    simp only [floodLoop, dif_neg hq, if_neg hdir, if_neg hpl]
    have hqf : q ∈ E.faces := hq' q (List.mem_cons_self q rest)
    have hqb0 : q ∉ bl0 := fun h => hq ((hbl q).mpr (Or.inl h))
    have hmain := ih
      (fun x hx => by
        rcases List.mem_append.mp hx with h | h
        · exact hq' x (List.mem_cons_of_mem q h)
        · exact hcl q hqf x h)
      (fun x => by
        simp only [Finset.mem_insert, hbl x]
        tauto)
      (fun x hx => by
        rcases Finset.mem_insert.mp hx with rfl | hx
        · exact ⟨hqf, hqb0⟩
        · exact hreg x hx)
    exact ⟨hmain.1, hmain.2.1,
      le_trans (Finset.subset_insert q region) hmain.2.2⟩

/-- `floodfill` from an unblacklisted boundary seed: the seed lands in
the returned region, the new blacklist is the old plus the region, and
every region member is an unblacklisted boundary face. -/
theorem floodfill_spec (E : RegionEnv ι γ π) (pt : ℚ)
    (hcl : ∀ f ∈ E.faces, ∀ n ∈ E.nbrs f, n ∈ E.faces)
    (seed : ι) (bl0 : Finset ι)
    (hseed : seed ∈ E.faces) (hnb : seed ∉ bl0) :
    seed ∈ (floodfill E seed bl0 pt).1 ∧
    (∀ x, x ∈ (floodfill E seed bl0 pt).2 ↔
        x ∈ bl0 ∨ x ∈ (floodfill E seed bl0 pt).1) ∧
    (∀ x ∈ (floodfill E seed bl0 pt).1, x ∈ E.faces ∧ x ∉ bl0) := by
  by_cases hp : E.planarity seed < pt
  · simp only [floodfill, if_pos hp]
    refine ⟨Finset.mem_singleton_self seed, ?_, ?_⟩
    · intro x
      simp only [Finset.mem_insert, Finset.mem_singleton]
      tauto
    · intro x hx
      rcases Finset.mem_singleton.mp hx with rfl
      exact ⟨hseed, hnb⟩
  · simp only [floodfill, if_neg hp]
    have hstep : floodLoop E (E.direction seed) pt [seed] ∅ bl0
        = floodLoop E (E.direction seed) pt (E.nbrs seed) {seed}
            (insert seed bl0) := by
      simp only [floodLoop, dif_neg hnb, if_neg (fun h => h rfl : ¬ E.direction seed ≠ E.direction seed),
        if_neg hp, List.nil_append]
      rfl
    rw [hstep]
    have hmain := floodLoop_spec E (E.direction seed) pt hcl bl0
      (E.nbrs seed) {seed} (insert seed bl0)
      (fun x hx => hcl seed hseed x hx)
      (fun x => by
        simp only [Finset.mem_insert, Finset.mem_singleton]
        tauto)
      (fun x hx => by
        rcases Finset.mem_singleton.mp hx with rfl
        exact ⟨hseed, hnb⟩)
    exact ⟨hmain.2.2 (Finset.mem_singleton_self seed), hmain.1, hmain.2.1⟩

end Geo

namespace Geo

variable {ι γ π : Type} [LinearOrder ι] [Fintype ι]

/-- The region-formation loop keeps the blacklist equal to the union of
the formed regions, the regions pairwise disjoint, made of boundary
faces, and correctly indexed by the seed map; and it blacklists every
face it walks. -/
theorem popLoop_inv (E : RegionEnv ι γ π)
    (hcl : ∀ f ∈ E.faces, ∀ n ∈ E.nbrs f, n ∈ E.faces) :
    ∀ (rest : List ι) (st : RGState ι γ π) (bl : Finset ι)
      (st' : RGState ι γ π) (bl' : Finset ι),
      popLoop E rest st bl = some (st', bl') →
      (∀ f ∈ rest, f ∈ E.faces) →
      (∀ x, x ∈ bl ↔ ∃ r ri, st.info r = some ri ∧ x ∈ ri.region) →
      (∀ r s ri si, st.info r = some ri → st.info s = some si → r ≠ s →
          Disjoint ri.region si.region) →
      (∀ r ri, st.info r = some ri → ri.region ⊆ E.faces) →
      (∀ x ∈ bl, ∃ r ri, st.seeds x = some r ∧ st.info r = some ri ∧
          x ∈ ri.region) →
      ((∀ x, x ∈ bl' ↔ ∃ r ri, st'.info r = some ri ∧ x ∈ ri.region) ∧
       (∀ r s ri si, st'.info r = some ri → st'.info s = some si → r ≠ s →
           Disjoint ri.region si.region) ∧
       (∀ r ri, st'.info r = some ri → ri.region ⊆ E.faces) ∧
       (∀ x ∈ bl', ∃ r ri, st'.seeds x = some r ∧ st'.info r = some ri ∧
           x ∈ ri.region) ∧
       (∀ f ∈ rest, f ∈ bl') ∧ bl ⊆ bl') := by
  intro rest
  induction rest with
  | nil =>
    intro st bl st' bl' heq _ hbl hdisj hsub hseeds
    simp only [popLoop, Option.some.injEq, Prod.mk.injEq] at heq
    obtain ⟨rfl, rfl⟩ := heq
    exact ⟨hbl, hdisj, hsub, hseeds, by simp, le_refl _⟩
  | cons f rest ih =>
    intro st bl st' bl' heq hrest hbl hdisj hsub hseeds
    by_cases hf : f ∈ bl
    · simp only [popLoop, if_pos hf] at heq
      have hmain := ih st bl st' bl' heq
        (fun x hx => hrest x (List.mem_cons_of_mem f hx)) hbl hdisj hsub hseeds
      refine ⟨hmain.1, hmain.2.1, hmain.2.2.1, hmain.2.2.2.1, ?_, hmain.2.2.2.2.2⟩
      intro x hx
      rcases List.mem_cons.mp hx with rfl | hx
      · exact hmain.2.2.2.2.2 hf
      · exact hmain.2.2.2.2.1 x hx
    · have hff : f ∈ E.faces := hrest f (List.mem_cons_self f rest)
      obtain ⟨hfR, hblR, hmemR⟩ := floodfill_spec E 0 hcl f bl hff hf
      simp only [popLoop, if_neg hf] at heq
      cases hinfo : st.info f with
      | some ri => rw [hinfo] at heq; exact absurd heq (by simp)
      | none =>
        rw [hinfo] at heq
        set R := (floodfill E f bl 0).1 with hR
        set bl1 := (floodfill E f bl 0).2 with hbl1
        set ri0 : RegionInfo ι γ π := ⟨R, E.seedPlane f, [], [], []⟩ with hri0
        set st1 : RGState ι γ π :=
          ⟨st.keyOrder ++ [f], Function.update st.info f (some ri0),
           fun x => if x ∈ R then some f else st.seeds x⟩ with hst1
        have hnewinfo : ∀ r, st1.info r =
            if r = f then some ri0 else st.info r := by
          intro r
          simp [hst1, Function.update_apply]
        have hRbl : ∀ x ∈ R, x ∉ bl := fun x hx => (hmemR x hx).2
        have holdbl : ∀ {x r ri}, st.info r = some ri → x ∈ ri.region →
            x ∈ bl := fun {x r ri} h1 h2 => (hbl x).mpr ⟨r, ri, h1, h2⟩
        have hmain := ih st1 bl1 st' bl' heq
          (fun x hx => hrest x (List.mem_cons_of_mem f hx))
          (fun x => by
            rw [hblR x, hbl x]
            constructor
            · rintro (⟨r, ri, h1, h2⟩ | hxR)
              · refine ⟨r, ri, ?_, h2⟩
                rw [hnewinfo r, if_neg ?_]
                · exact h1
                · rintro rfl
                  rw [hinfo] at h1
                  exact Option.noConfusion h1
              · exact ⟨f, ri0, by rw [hnewinfo f, if_pos rfl], hxR⟩
            · rintro ⟨r, ri, h1, h2⟩
              rw [hnewinfo r] at h1
              by_cases hrf : r = f
              · rw [if_pos hrf] at h1
                right
                obtain rfl := Option.some.inj h1
                exact h2
              · rw [if_neg hrf] at h1
                exact Or.inl ⟨r, ri, h1, h2⟩)
          (fun r s ri si h1 h2 hne => by
            rw [hnewinfo r] at h1
            rw [hnewinfo s] at h2
            by_cases hrf : r = f <;> by_cases hsf : s = f
            · exact absurd (hrf.trans hsf.symm) hne
            · rw [if_pos hrf] at h1
              rw [if_neg hsf] at h2
              obtain rfl := Option.some.inj h1
              rw [Finset.disjoint_left]
              exact fun {x} hx hx' => hRbl x hx (holdbl h2 hx')
            · rw [if_neg hrf] at h1
              rw [if_pos hsf] at h2
              obtain rfl := Option.some.inj h2
              rw [Finset.disjoint_right]
              exact fun {x} hx hx' => hRbl x hx (holdbl h1 hx')
            · rw [if_neg hrf] at h1
              rw [if_neg hsf] at h2
              exact hdisj r s ri si h1 h2 hne)
          (fun r ri h1 => by
            rw [hnewinfo r] at h1
            by_cases hrf : r = f
            · rw [if_pos hrf] at h1
              obtain rfl := Option.some.inj h1
              exact fun x hx => (hmemR x hx).1
            · rw [if_neg hrf] at h1
              exact hsub r ri h1)
          (fun x hx => by
            rcases (hblR x).mp hx with hxbl | hxR
            · obtain ⟨r, ri, e1, e2, e3⟩ := hseeds x hxbl
              refine ⟨r, ri, ?_, ?_, e3⟩
              · show (if x ∈ R then some f else st.seeds x) = some r
                rw [if_neg (fun hxR => hRbl x hxR hxbl)]
                exact e1
              · rw [hnewinfo r, if_neg ?_]
                · exact e2
                · rintro rfl
                  rw [hinfo] at e2
                  exact Option.noConfusion e2
            · refine ⟨f, ri0, ?_, by rw [hnewinfo f, if_pos rfl], hxR⟩
              show (if x ∈ R then some f else st.seeds x) = some f
              rw [if_pos hxR])
        refine ⟨hmain.1, hmain.2.1, hmain.2.2.1, hmain.2.2.2.1, ?_, ?_⟩
        · intro x hx
          rcases List.mem_cons.mp hx with rfl | hx
          · exact hmain.2.2.2.2.2 ((hblR x).mpr (Or.inr hfR))
          · exact hmain.2.2.2.2.1 x hx
        · exact le_trans (fun x hx => (hblR x).mpr (Or.inl hx))
            hmain.2.2.2.2.2

end Geo

namespace Geo

variable {ι γ π : Type} [LinearOrder ι] [Fintype ι]

/-- The neighbor pass only rewrites `neighbor_seeds`: the seed index and
every region's face set survive unchanged. -/
theorem nbrPass_preserve (E : RegionEnv ι γ π) :
    ∀ (ks : List ι) (st st' : RGState ι γ π),
      nbrPass E ks st = some st' →
      st'.seeds = st.seeds ∧
      ∀ r, (st'.info r).map RegionInfo.region
          = (st.info r).map RegionInfo.region := by
  intro ks
  induction ks with
  | nil =>
    intro st st' heq
    simp only [nbrPass, Option.some.injEq] at heq
    subst heq
    exact ⟨rfl, fun r => rfl⟩
  | cons r ks ih =>
    intro st st' heq
    simp only [nbrPass] at heq
    cases hinfo : st.info r with
    | none => rw [hinfo] at heq; exact absurd heq (by simp)
    | some ri =>
      simp only [hinfo] at heq
      cases hscan : faceScan E st.seeds r (ri.region.sort (· ≤ ·))
          ri.neighbor_seeds with
      | none => rw [hscan] at heq; exact absurd heq (by simp)
      | some acc =>
        simp only [hscan] at heq
        obtain ⟨h1, h2⟩ := ih _ _ heq
        refine ⟨h1, fun s => ?_⟩
        rw [h2 s]
        show (Function.update st.info r
            (some { ri with neighbor_seeds := acc }) s).map _ = _
        rcases eq_or_ne s r with rfl | hne
        · rw [Function.update_same, hinfo]
          rfl
        · rw [Function.update_noteq hne]

/-- `RGInv` only depends on the seed index and the regions' face sets, so
it transfers across any state change preserving those. -/
theorem RGInv_transfer (E : RegionEnv ι γ π) {st st' : RGState ι γ π}
    (hseeds : st'.seeds = st.seeds)
    (hinfo : ∀ r, (st'.info r).map RegionInfo.region
        = (st.info r).map RegionInfo.region)
    (h : RGInv E st) : RGInv E st' := by
  obtain ⟨hdisj, hcov, hsd⟩ := h
  have hsome : ∀ r ri', st'.info r = some ri' →
      ∃ ri, st.info r = some ri ∧ ri.region = ri'.region := by
    intro r ri' h1
    have := hinfo r
    rw [h1] at this
    cases h2 : st.info r with
    | none => rw [h2] at this; exact absurd this (by simp)
    | some ri =>
      rw [h2] at this
      simp only [Option.map_some'] at this
      exact ⟨ri, rfl, (Option.some.inj this).symm⟩
  have hsome' : ∀ r ri, st.info r = some ri →
      ∃ ri', st'.info r = some ri' ∧ ri'.region = ri.region := by
    intro r ri h1
    have := hinfo r
    rw [h1] at this
    cases h2 : st'.info r with
    | none => rw [h2] at this; exact absurd this (by simp)
    | some ri' =>
      rw [h2] at this
      simp only [Option.map_some'] at this
      exact ⟨ri', rfl, Option.some.inj this⟩
  refine ⟨?_, ?_, ?_⟩
  · intro r s ri' si' h1 h2 hne
    obtain ⟨ri, e1, e2⟩ := hsome r ri' h1
    obtain ⟨si, e3, e4⟩ := hsome s si' h2
    rw [← e2, ← e4]
    exact hdisj r s ri si e1 e3 hne
  · intro f
    rw [hcov f]
    constructor
    · rintro ⟨r, ri, h1, h2⟩
      obtain ⟨ri', e1, e2⟩ := hsome' r ri h1
      exact ⟨r, ri', e1, e2 ▸ h2⟩
    · rintro ⟨r, ri', h1, h2⟩
      obtain ⟨ri, e1, e2⟩ := hsome r ri' h1
      exact ⟨r, ri, e1, e2 ▸ h2⟩
  · intro f hf
    obtain ⟨r, ri, e1, e2, e3⟩ := hsd f hf
    obtain ⟨ri', e4, e5⟩ := hsome' r ri e2
    exact ⟨r, ri', hseeds ▸ e1, e4, e5 ▸ e3⟩

/-- The neighbor-rewiring loop of `merge_regions` leaves every region's
face set unchanged. -/
theorem mergeNbrLoop_region (a b : ι) :
    ∀ (l : List ι) (info info' : ι → Option (RegionInfo ι γ π)),
      mergeNbrLoop a b l info = some info' →
      ∀ r, (info' r).map RegionInfo.region = (info r).map RegionInfo.region := by
  intro l
  induction l with
  | nil =>
    intro info info' heq r
    simp only [mergeNbrLoop, Option.some.injEq] at heq
    subst heq
    rfl
  | cons nbr ns ih =>
    intro info info' heq r
    simp only [mergeNbrLoop] at heq
    cases hn : info nbr with
    | none => rw [hn] at heq; exact absurd heq (by simp)
    | some ninfo =>
      simp only [hn] at heq
      by_cases hnf : nbr ≠ a
      · rw [if_pos hnf] at heq
        cases hfa : info a with
        | none => rw [hfa] at heq; exact absurd heq (by simp)
        | some finfo =>
          simp only [hfa] at heq
          rw [ih _ _ heq r]
          rcases eq_or_ne r nbr with rfl | h1
          · rw [Function.update_same, hn]
            rfl
          · rw [Function.update_noteq h1]
            rcases eq_or_ne r a with rfl | h2
            · rw [Function.update_same, hfa]
              rfl
            · rw [Function.update_noteq h2]
      · rw [if_neg hnf] at heq
        rw [ih _ _ heq r]
        rcases eq_or_ne r nbr with rfl | h1
        · rw [Function.update_same, hn]
          rfl
        · rw [Function.update_noteq h1]

end Geo

namespace Geo

variable {ι γ π : Type} [LinearOrder ι] [Fintype ι]

/-- A successful `merge_regions` on two distinct regions preserves the
partition invariant: the second region's faces move into the first, the
second region disappears, and the seed index follows. -/
theorem merge_preserves_RGInv (E : RegionEnv ι γ π)
    {st st' : RGState ι γ π} {pair : RegionPair ι π}
    (hinv : RGInv E st) (hne : pair.first ≠ pair.second)
    (hmg : merge_regions st pair = some st') : RGInv E st' := by
  obtain ⟨hdisj, hcov, hsd⟩ := hinv
  simp only [merge_regions] at hmg
  cases hfit : st.info pair.first with
  | none => rw [hfit] at hmg; exact absurd hmg (by simp)
  | some fi =>
  simp only [hfit] at hmg
  cases hsit : st.info pair.second with
  | none => rw [hsit] at hmg; exact absurd hmg (by simp)
  | some si =>
  simp only [hsit] at hmg
  by_cases hck : pair.num_faces ≠ (fi.region ∪ si.region).card
  · rw [if_pos hck] at hmg
    exact absurd hmg (by simp)
  · rw [if_neg hck] at hmg
    cases hml : mergeNbrLoop pair.first pair.second si.neighbor_seeds
        (Function.update st.info pair.first
          (some { fi with region := fi.region ∪ si.region })) with
    | none => rw [hml] at hmg; exact absurd hmg (by simp)
    | some info₂ =>
    simp only [hml] at hmg
    cases hf2 : info₂ pair.first with
    | none => rw [hf2] at hmg; exact absurd hmg (by simp)
    | some fitInfo₂ =>
    simp only [hf2] at hmg
    have hst' := Option.some.inj hmg
    have hreg2 := mergeNbrLoop_region pair.first pair.second
      si.neighbor_seeds _ info₂ hml
    have hreg2first : fitInfo₂.region = fi.region ∪ si.region := by
      have h := hreg2 pair.first
      rw [hf2, Function.update_same] at h
      simpa using h
    have hother : ∀ r, r ≠ pair.first →
        (info₂ r).map RegionInfo.region = (st.info r).map RegionInfo.region := by
      intro r hr
      rw [hreg2 r, Function.update_noteq hr]
    have hoth : ∀ r ri', r ≠ pair.first → info₂ r = some ri' →
        ∃ ri, st.info r = some ri ∧ ri.region = ri'.region := by
      intro r ri' hr h1
      have h := hother r hr
      rw [h1] at h
      cases h2 : st.info r with
      | none => rw [h2] at h; exact absurd h (by simp)
      | some ri =>
        rw [h2] at h
        simp only [Option.map_some'] at h
        exact ⟨ri, rfl, (Option.some.inj h).symm⟩
    have hoth' : ∀ r ri, r ≠ pair.first → st.info r = some ri →
        ∃ ri', info₂ r = some ri' ∧ ri'.region = ri.region := by
      intro r ri hr h1
      have h := hother r hr
      rw [h1] at h
      cases h2 : info₂ r with
      | none => rw [h2] at h; exact absurd h (by simp)
      | some ri' =>
        rw [h2] at h
        simp only [Option.map_some'] at h
        exact ⟨ri', rfl, Option.some.inj h⟩
    set fit₃ : RegionInfo ι γ π :=
      { fitInfo₂ with
        centers := fitInfo₂.centers ++ si.centers,
        variances := fitInfo₂.variances ++ si.variances,
        plane := pair.plane } with hfit₃
    have hinfo' : st'.info = Function.update
        (Function.update info₂ pair.first (some fit₃)) pair.second none :=
      (congrArg RGState.info hst').symm
    have hseeds' : st'.seeds = fun x =>
        if x ∈ si.region then some pair.first else st.seeds x :=
      (congrArg RGState.seeds hst').symm
    have hinfoF : ∀ r, st'.info r =
        if r = pair.second then none
        else if r = pair.first then some fit₃ else info₂ r := by
      intro r
      rw [hinfo']
      rcases eq_or_ne r pair.second with rfl | h2
      · rw [Function.update_same, if_pos rfl]
      · rw [Function.update_noteq h2, if_neg h2]
        rcases eq_or_ne r pair.first with rfl | h1
        · rw [Function.update_same, if_pos rfl]
        · rw [Function.update_noteq h1, if_neg h1]
    have hfit₃reg : fit₃.region = fi.region ∪ si.region := hreg2first
    refine ⟨?_, ?_, ?_⟩
    · -- pairwise disjoint
      intro r s ri' si' h1 h2 hrs
      rw [hinfoF] at h1 h2
      by_cases hr2 : r = pair.second
      · rw [if_pos hr2] at h1; exact absurd h1 (by simp)
      by_cases hs2 : s = pair.second
      · rw [if_pos hs2] at h2; exact absurd h2 (by simp)
      rw [if_neg hr2] at h1
      rw [if_neg hs2] at h2
      by_cases hr1 : r = pair.first
      · rw [if_pos hr1] at h1
        obtain rfl := (Option.some.inj h1).symm
        rw [if_neg (fun h => hrs (hr1.trans h.symm) : ¬ s = pair.first)] at h2
        obtain ⟨sold, e1, e2⟩ := hoth s si' (by
          intro h; exact (hrs (hr1.trans h.symm)).elim) h2
        rw [hfit₃reg, ← e2]
        refine Finset.disjoint_union_left.mpr ⟨?_, ?_⟩
        · exact hdisj pair.first s fi sold hfit e1 (hr1 ▸ hrs)
        · exact hdisj pair.second s si sold hsit e1 (Ne.symm hs2)
      · rw [if_neg hr1] at h1
        by_cases hs1 : s = pair.first
        · rw [if_pos hs1] at h2
          obtain rfl := (Option.some.inj h2).symm
          obtain ⟨rold, e1, e2⟩ := hoth r ri' hr1 h1
          rw [hfit₃reg, ← e2]
          refine (Finset.disjoint_union_left.mpr ⟨?_, ?_⟩).symm
          · exact hdisj pair.first r fi rold hfit e1 (hs1 ▸ hrs).symm
          · exact hdisj pair.second r si rold hsit e1 (Ne.symm hr2)
        · rw [if_neg hs1] at h2
          obtain ⟨rold, e1, e2⟩ := hoth r ri' hr1 h1
          obtain ⟨sold, e3, e4⟩ := hoth s si' hs1 h2
          rw [← e2, ← e4]
          exact hdisj r s rold sold e1 e3 hrs
    · -- coverage
      intro f
      rw [hcov f]
      constructor
      · rintro ⟨r, ri, h1, h2⟩
        by_cases hr2 : r = pair.second
        · refine ⟨pair.first, fit₃, ?_, ?_⟩
          · rw [hinfoF, if_neg hne, if_pos rfl]
          · rw [hfit₃reg, Finset.mem_union]
            right
            rw [hr2] at h1
            rw [hsit] at h1
            obtain rfl := Option.some.inj h1
            exact h2
        · by_cases hr1 : r = pair.first
          · refine ⟨pair.first, fit₃, ?_, ?_⟩
            · rw [hinfoF, if_neg hne, if_pos rfl]
            · rw [hfit₃reg, Finset.mem_union]
              left
              rw [hr1, hfit] at h1
              obtain rfl := Option.some.inj h1
              exact h2
          · obtain ⟨ri', e1, e2⟩ := hoth' r ri hr1 h1
            refine ⟨r, ri', ?_, e2 ▸ h2⟩
            rw [hinfoF, if_neg hr2, if_neg hr1]
            exact e1
      · rintro ⟨r, ri', h1, h2⟩
        rw [hinfoF] at h1
        by_cases hr2 : r = pair.second
        · rw [if_pos hr2] at h1; exact absurd h1 (by simp)
        rw [if_neg hr2] at h1
        by_cases hr1 : r = pair.first
        · rw [if_pos hr1] at h1
          obtain rfl := (Option.some.inj h1).symm
          rw [hfit₃reg, Finset.mem_union] at h2
          rcases h2 with h2 | h2
          · exact ⟨pair.first, fi, hfit, h2⟩
          · exact ⟨pair.second, si, hsit, h2⟩
        · rw [if_neg hr1] at h1
          obtain ⟨rold, e1, e2⟩ := hoth r ri' hr1 h1
          exact ⟨r, rold, e1, e2 ▸ h2⟩
    · -- seeds
      intro f hf
      by_cases hfs : f ∈ si.region
      · refine ⟨pair.first, fit₃, ?_, ?_, ?_⟩
        · rw [hseeds']
          simp only [if_pos hfs]
        · rw [hinfoF, if_neg hne, if_pos rfl]
        · rw [hfit₃reg, Finset.mem_union]
          exact Or.inr hfs
      · obtain ⟨r, ri, e1, e2, e3⟩ := hsd f hf
        have hr2 : r ≠ pair.second := by
          rintro rfl
          rw [hsit] at e2
          obtain rfl := Option.some.inj e2
          exact hfs e3
        by_cases hr1 : r = pair.first
        · refine ⟨pair.first, fit₃, ?_, ?_, ?_⟩
          · rw [hseeds']
            simp only [if_neg hfs]
            rw [← hr1]
            exact e1
          · rw [hinfoF, if_neg hne, if_pos rfl]
          · rw [hfit₃reg, Finset.mem_union]
            left
            rw [hr1, hfit] at e2
            obtain rfl := Option.some.inj e2
            exact e3
        · obtain ⟨ri', e4, e5⟩ := hoth' r ri hr1 e2
          refine ⟨r, ri', ?_, ?_, e5 ▸ e3⟩
          · rw [hseeds']
            simp only [if_neg hfs]
            exact e1
          · rw [hinfoF, if_neg hr2, if_neg hr1]
            exact e4

end Geo

namespace Geo

/-- C2: after `populate` (on a boundary whose face list is exactly the
boundary faces and whose neighbor relation stays within them), and after
every successful `merge_regions` of two distinct regions, the regions
partition the boundary faces — pairwise disjoint with union the whole
boundary — and the face→seed index maps every face into a region
containing it. -/
theorem C2_partition {ι γ π : Type} [LinearOrder ι] [Fintype ι] :
    (∀ (E : RegionEnv ι γ π) (bfOrder : List ι) (st : RGState ι γ π),
       (∀ f ∈ E.faces, ∀ n ∈ E.nbrs f, n ∈ E.faces) →
       (∀ f, f ∈ E.faces ↔ f ∈ bfOrder) →
       rgPopulate E bfOrder = some st →
       RGInv E st) ∧
    (∀ (E : RegionEnv ι γ π) (st st' : RGState ι γ π)
       (pair : RegionPair ι π),
       RGInv E st → pair.first ≠ pair.second →
       merge_regions st pair = some st' →
       RGInv E st') := by
  constructor
  · intro E bfOrder st hcl hfaces hpop
    simp only [rgPopulate] at hpop
    cases hpl : popLoop E bfOrder ⟨[], fun _ => none, fun _ => none⟩ ∅ with
    | none => rw [hpl] at hpop; exact absurd hpop (by simp)
    | some p =>
      obtain ⟨st₀, bl'⟩ := p
      simp only [hpl] at hpop
      have hinv0 := popLoop_inv E hcl bfOrder _ ∅ st₀ bl' hpl
        (fun f hf => (hfaces f).mpr hf)
        (by simp)
        (by simp)
        (by simp)
        (by simp)
      obtain ⟨hbl', hdisj, hsub, hseeds, hall, _⟩ := hinv0
      obtain ⟨hseedseq, hregeq⟩ := nbrPass_preserve E st₀.keyOrder st₀ st hpop
      refine RGInv_transfer E hseedseq hregeq ⟨hdisj, ?_, ?_⟩
      · intro f
        constructor
        · intro hf
          exact (hbl' f).mp (hall f ((hfaces f).mp hf))
        · rintro ⟨r, ri, h1, h2⟩
          exact hsub r ri h1 h2
      · intro f hf
        exact hseeds f (hall f ((hfaces f).mp hf))
  · intro E st st' pair hinv hne hmg
    exact merge_preserves_RGInv E hinv hne hmg

/-- A pair of the two regions of `stW` with the correct cached face
count 2, as `merge_regions` checks it. -/
def pairB : RegionPair (Fin 2) (List ℕ) := ⟨0, 1, [], 0, 2⟩

/-- C2: witness.  Populating the two-face boundary `EW` succeeds and
yields a partition, and merging its two singleton regions yields a
partition again. -/
theorem C2_partition_witness :
    (∃ st, rgPopulate EW [0, 1] = some st ∧ RGInv EW st) ∧
    (∃ st', merge_regions stW pairB = some st' ∧ RGInv EW st') := by
  have hinvW : RGInv EW stW := by
    refine ⟨?_, ?_, ?_⟩
    · intro r s ri si hr hs hne
      obtain rfl := Option.some.inj hr
      obtain rfl := Option.some.inj hs
      simp only [riW]
      exact Finset.disjoint_singleton.mpr hne
    · intro f
      constructor
      · intro _
        exact ⟨f, riW f, rfl, by simp [riW]⟩
      · intro _
        simp [EW]
    · intro f _
      exact ⟨f, riW f, rfl, rfl, by simp [riW]⟩
  constructor
  · have h : (rgPopulate EW [0, 1]).isSome := by
      simp +decide [rgPopulate, popLoop, floodfill, floodLoop, nbrPass,
        faceScan, nbrScan, osInsert, EW, Finset.sort_singleton,
        Function.update_apply]
    exact ⟨(rgPopulate EW [0, 1]).get h, (Option.some_get h).symm,
      C2_partition.1 EW [0, 1] _ (by decide) (by decide)
        (Option.some_get h).symm⟩
  · have h2 : (merge_regions stW pairB).isSome := by decide
    exact ⟨(merge_regions stW pairB).get h2, (Option.some_get h2).symm,
      C2_partition.2 EW stW _ pairB hinvW (by decide)
        (Option.some_get h2).symm⟩

end Geo

namespace Geo

/-! ## Octree nodes and the topology builder (octnode.h / octtopo.cpp) -/

/-- An octree node (octnode.h): eight optional children in the octant
order of the header (+x+y+z = 0, −x+y+z = 1, −x−y+z = 2, +x−y+z = 3,
then the −z octants 4..7). -/
inductive OctTree : Type
  | node : (c0 c1 c2 c3 c4 c5 c6 c7 : Option OctTree) → OctTree

/-- The `children` array of a node. -/
def OctTree.children : OctTree → Fin 8 → Option OctTree
  | node c0 _ _ _ _ _ _ _, 0 => c0
  | node _ c1 _ _ _ _ _ _, 1 => c1
  | node _ _ c2 _ _ _ _ _, 2 => c2
  | node _ _ _ c3 _ _ _ _, 3 => c3
  | node _ _ _ _ c4 _ _ _, 4 => c4
  | node _ _ _ _ _ c5 _ _, 5 => c5
  | node _ _ _ _ _ _ c6 _, 6 => c6
  | node _ _ _ _ _ _ _ c7, 7 => c7

/-- Modelled from the spec: `octnode_t::isleaf` — a leaf is a node whose
children are all absent (octnode.cpp is not in src/). -/
def OctTree.isleaf (t : OctTree) : Bool :=
  (List.finRange 8).all fun i => (t.children i).isNone

/-- A node handle: the child-index path from the root, deepest step
first (`i :: p` addresses child `i` of the node at `p`).  Distinct live
nodes of a tree have distinct paths, so paths model the node pointers. -/
abbrev OctPath := List (Fin 8)

/-- Pointer dereference: the node addressed by a path, if it exists. -/
def nodeAt (t : OctTree) : OctPath → Option OctTree
  | [] => some t
  | i :: p =>
    match nodeAt t p with
    | none => none
    | some n => n.children i

/-- Whether a path addresses a leaf. -/
def isLeafAt (t : OctTree) (p : OctPath) : Bool :=
  match nodeAt t p with
  | none => false
  | some n => n.isleaf

/-- `relative_child_pos` (octnode.h 216-261): the sign vector of a child
octant relative to its parent's center. -/
def childDir (i : Fin 8) : Fin 3 → ℚ := fun a =>
  match a with
  | 0 => if i = 0 ∨ i = 3 ∨ i = 4 ∨ i = 7 then 1 else -1
  | 1 => if i = 0 ∨ i = 1 ∨ i = 4 ∨ i = 5 then 1 else -1
  | 2 => if i.val < 4 then 1 else -1

/-- Node halfwidth: halves at every level
(octree subdivision, spec §2 and octree.cpp). -/
def hwAt (hw0 : ℚ) : OctPath → ℚ
  | [] => hw0
  | _ :: p => hwAt hw0 p / 2

/-- Node center: the parent's center offset by `±hw/2` per octant
(`relative_child_pos(i) * halfwidth/2 + center`, cf. tree_exporter.cpp
494-496). -/
def ctrAt (c0 : Fin 3 → ℚ) (hw0 : ℚ) : OctPath → Fin 3 → ℚ
  | [] => c0
  | i :: p => fun a => ctrAt c0 hw0 p a + hwAt hw0 p / 2 * childDir i a

/-- The `octtopo_t` state: the key set of the node→neighbors map and the
per-face neighbor sets. -/
structure TopoState where
  keys : Finset OctPath
  nbrs : OctPath → CubeFace → Finset OctPath

/-- Modelled from the spec: `octneighbors_t::add` inserts a node handle
into a face's neighbor set and ignores absent (NULL) handles
(octtopo.h is not in src/; a NULL key is never in the map, so accepted
NULLs would make `remove_nonleafs` fail on every sparse tree). -/
def octAdd (x : Option OctPath) (s : Finset OctPath) : Finset OctPath :=
  match x with
  | none => s
  | some m => insert m s

/-- `octneighbors_t::get_singletons` (octtopo.cpp 72-78) for one face:
the unique neighbor if the face's set has exactly one element, else
NULL. -/
def getSingleton (s : Finset OctPath) : Option OctPath :=
  if h : s.card = 1 then
    some (s.min' (by rw [← Finset.card_pos]; omega))
  else none

/-- `octtopo_t::get_children_of` (octtopo.cpp 709-725): NULL gives NULL,
a leaf stands in for each of its children, otherwise the actual child
(possibly NULL).  A dangling handle (no node at the path) behaves like
NULL; handles stored in the map always dereference. -/
def getChildrenOf (tr : OctTree) (u : Option OctPath) (i : Fin 8) :
    Option OctPath :=
  match u with
  | none => none
  | some up =>
    match nodeAt tr up with
    | none => none
    | some un =>
      if un.isleaf then some up
      else (un.children i).map fun _ => i :: up

/-- The per-child neighbor tables built by `init_children`
(octtopo.cpp 616-690): for each child octant, one entry per face — the
sibling table (lines 619-646) on the three inward faces and the cousins
(children of the parent's singleton neighbor, lines 650-690) on the
three outward faces.  Each `octAdd` call mirrors one `ns[i].add` line. -/
def nsTable (tr : OctTree) (s : TopoState) (p : OctPath) (n : OctTree) :
    Fin 8 → CubeFace → Finset OctPath :=
  let ch : Fin 8 → Option OctPath :=
    fun j => (n.children j).map fun _ => j :: p
  let uncle : CubeFace → Option OctPath :=
    fun f => getSingleton (s.nbrs p f)
  let cz : CubeFace → Fin 8 → Option OctPath :=
    fun f j => getChildrenOf tr (uncle f) j
  fun i f =>
    match i, f with
    | 0, .xminus => octAdd (ch 1) ∅
    | 0, .yminus => octAdd (ch 3) ∅
    | 0, .zminus => octAdd (ch 4) ∅
    | 0, .xplus  => octAdd (cz .xplus 1) ∅
    | 0, .yplus  => octAdd (cz .yplus 3) ∅
    | 0, .zplus  => octAdd (cz .zplus 4) ∅
    | 1, .xplus  => octAdd (ch 0) ∅
    | 1, .yminus => octAdd (ch 2) ∅
    | 1, .zminus => octAdd (ch 5) ∅
    | 1, .xminus => octAdd (cz .xminus 0) ∅
    | 1, .yplus  => octAdd (cz .yplus 2) ∅
    | 1, .zplus  => octAdd (cz .zplus 5) ∅
    | 2, .yplus  => octAdd (ch 1) ∅
    | 2, .xplus  => octAdd (ch 3) ∅
    | 2, .zminus => octAdd (ch 6) ∅
    | 2, .xminus => octAdd (cz .xminus 3) ∅
    | 2, .yminus => octAdd (cz .yminus 1) ∅
    | 2, .zplus  => octAdd (cz .zplus 6) ∅
    | 3, .xminus => octAdd (ch 2) ∅
    | 3, .yplus  => octAdd (ch 0) ∅
    | 3, .zminus => octAdd (ch 7) ∅
    | 3, .xplus  => octAdd (cz .xplus 2) ∅
    | 3, .yminus => octAdd (cz .yminus 0) ∅
    | 3, .zplus  => octAdd (cz .zplus 7) ∅
    | 4, .xminus => octAdd (ch 5) ∅
    | 4, .yminus => octAdd (ch 7) ∅
    | 4, .zplus  => octAdd (ch 0) ∅
    | 4, .xplus  => octAdd (cz .xplus 5) ∅
    | 4, .yplus  => octAdd (cz .yplus 7) ∅
    | 4, .zminus => octAdd (cz .zminus 0) ∅
    | 5, .xplus  => octAdd (ch 4) ∅
    | 5, .yminus => octAdd (ch 6) ∅
    | 5, .zplus  => octAdd (ch 1) ∅
    | 5, .xminus => octAdd (cz .xminus 4) ∅
    | 5, .yplus  => octAdd (cz .yplus 6) ∅
    | 5, .zminus => octAdd (cz .zminus 1) ∅
    | 6, .yplus  => octAdd (ch 5) ∅
    | 6, .xplus  => octAdd (ch 7) ∅
    | 6, .zplus  => octAdd (ch 2) ∅
    | 6, .xminus => octAdd (cz .xminus 7) ∅
    | 6, .yminus => octAdd (cz .yminus 5) ∅
    | 6, .zminus => octAdd (cz .zminus 2) ∅
    | 7, .xminus => octAdd (ch 6) ∅
    | 7, .yplus  => octAdd (ch 4) ∅
    | 7, .zplus  => octAdd (ch 3) ∅
    | 7, .xplus  => octAdd (cz .xplus 6) ∅
    | 7, .yminus => octAdd (cz .yminus 4) ∅
    | 7, .zminus => octAdd (cz .zminus 3) ∅

/-- Register child `i` of the node at `p` in the map with its built
neighbor table (octtopo.cpp 702: `this->neighs[node->children[i]] =
ns[i]`). -/
def regChild (s : TopoState) (p : OctPath) (i : Fin 8)
    (ns : Fin 8 → CubeFace → Finset OctPath) : TopoState :=
  ⟨insert (i :: p) s.keys, Function.update s.nbrs (i :: p) (ns i)⟩

mutual

/-- `octtopo_t::init_children` (octtopo.cpp 575-707): nothing to do at a
leaf; otherwise build the eight neighbor tables from the node's singleton
neighbors, then register and recurse into each existing child in octant
order. -/
def initChildren (tr : OctTree) : OctTree → OctPath → TopoState → TopoState
  | OctTree.node c0 c1 c2 c3 c4 c5 c6 c7, p, s =>
    if (OctTree.node c0 c1 c2 c3 c4 c5 c6 c7).isleaf then s
    else
      let ns := nsTable tr s p (OctTree.node c0 c1 c2 c3 c4 c5 c6 c7)
      initChildO tr c7 7 p ns (initChildO tr c6 6 p ns
        (initChildO tr c5 5 p ns (initChildO tr c4 4 p ns
          (initChildO tr c3 3 p ns (initChildO tr c2 2 p ns
            (initChildO tr c1 1 p ns (initChildO tr c0 0 p ns s)))))))

/-- One iteration of the `init_children` child loop (octtopo.cpp
695-706): skip an absent child, otherwise register it in the map with its
built table and recurse. -/
def initChildO (tr : OctTree) : Option OctTree → Fin 8 → OctPath →
    (Fin 8 → CubeFace → Finset OctPath) → TopoState → TopoState
  | none, _, _, _, s => s
  | some t, k, p, ns, s => initChildren tr t (k :: p) (regChild s p k ns)

end

/-- One iteration of the `remove_nonleafs` map walk
(octtopo.cpp 738-778): fail if any referenced neighbor is missing from
the map (error -1); then a leaf entry adds itself to each neighbor's
opposite face, a non-leaf entry removes itself.  A node never neighbors
itself, so the entry's own sets are not touched while read. -/
def processNode (tr : OctTree) (s : TopoState) (n : OctPath) :
    Option TopoState :=
  if (∀ f, s.nbrs n f ⊆ s.keys) then
    some { s with nbrs := fun m g =>
      if (isLeafAt tr n) then
        (if m ∈ s.nbrs n (oppFace g) then insert n (s.nbrs m g)
         else s.nbrs m g)
      else
        (if m ∈ s.nbrs n (oppFace g) then (s.nbrs m g).erase n
         else s.nbrs m g) }
  else none

/-- The map walk of `remove_nonleafs` over the entries in map order. -/
def rnlLoop (tr : OctTree) : List OctPath → TopoState → Option TopoState
  | [], s => some s
  | n :: rest, s =>
    match processNode tr s n with
    | none => none
    | some s' => rnlLoop tr rest s'

/-- `octtopo_t::remove_nonleafs` (octtopo.cpp 727-788): walk all map
entries mirroring or erasing their references, then erase every non-leaf
entry. -/
def removeNonleafs (tr : OctTree) (s : TopoState) (order : List OctPath) :
    Option TopoState :=
  match rnlLoop tr order s with
  | none => none
  | some s' => some { s' with keys := s'.keys.filter fun p => isLeafAt tr p }

/-- `octtopo_t::init` (octtopo.cpp 101-121): an empty entry for the root,
the recursive `init_children` population, then `remove_nonleafs`;
`order` is the pointer order in which the map walk visits the entries. -/
def octtopoInit (tr : OctTree) (order : List OctPath) : Option TopoState :=
  removeNonleafs tr
    (initChildren tr tr [] ⟨{([] : OctPath)}, fun _ _ => ∅⟩) order

end Geo

namespace Geo

/-! ## The intended phase-1 adjacency and its properties -/

/-- The octant adjacent to octant `i` across the axis of face `f` (the
mirror octant in the sibling/cousin tables of octtopo.cpp 616-690). -/
def flipChild (f : CubeFace) (i : Fin 8) : Fin 8 :=
  match axisOf f with
  | 0 => match i with
    | 0 => 1 | 1 => 0 | 2 => 3 | 3 => 2 | 4 => 5 | 5 => 4 | 6 => 7 | 7 => 6
  | 1 => match i with
    | 0 => 3 | 1 => 2 | 2 => 1 | 3 => 0 | 4 => 7 | 5 => 6 | 6 => 5 | 7 => 4
  | 2 => match i with
    | 0 => 4 | 1 => 5 | 2 => 6 | 3 => 7 | 4 => 0 | 5 => 1 | 6 => 2 | 7 => 3

/-- A neighbor-set literal: empty for NULL, a singleton otherwise. -/
def optSet (x : Option OctPath) : Finset OctPath :=
  match x with
  | none => ∅
  | some m => {m}

/-- The neighbor `init_children` records for the node at a path on one
face: on an inward face the sibling octant (if present); on an outward
face the parent's recorded neighbor when that neighbor is a leaf, else
that neighbor's mirror-octant child (if present). -/
def Enb (tr : OctTree) : OctPath → CubeFace → Option OctPath
  | [], _ => none
  | i :: p, f =>
    if childDir i (axisOf f) = -(faceSign f) then
      (nodeAt tr (flipChild f i :: p)).map fun _ => flipChild f i :: p
    else
      match Enb tr p f with
      | none => none
      | some u =>
        match nodeAt tr u with
        | none => none
        | some un =>
          if un.isleaf then some u
          else (un.children (flipChild f i)).map fun _ => flipChild f i :: u

theorem flipChild_flipChild : ∀ (f : CubeFace) (i : Fin 8),
    flipChild f (flipChild f i) = i := by decide

theorem flipChild_opp : ∀ (f : CubeFace) (i : Fin 8),
    flipChild (oppFace f) i = flipChild f i := by decide

theorem axisOf_opp (f : CubeFace) : axisOf (oppFace f) = axisOf f := by
  cases f <;> rfl

theorem oppFace_oppFace (f : CubeFace) : oppFace (oppFace f) = f := by
  cases f <;> rfl

theorem faceSign_opp (f : CubeFace) : faceSign (oppFace f) = -(faceSign f) := by
  cases f <;> norm_num [faceSign, oppFace]

theorem faceSign_cases (f : CubeFace) : faceSign f = 1 ∨ faceSign f = -1 := by
  cases f <;> norm_num [faceSign]

theorem childDir_flipChild : ∀ (f : CubeFace) (i : Fin 8),
    childDir (flipChild f i) (axisOf f) = -(childDir i (axisOf f)) := by
  decide

theorem childDir_cases : ∀ (f : CubeFace) (i : Fin 8),
    childDir i (axisOf f) = faceSign f ∨
    childDir i (axisOf f) = -(faceSign f) := by
  decide

theorem nodeAt_cons (tr : OctTree) (i : Fin 8) (p : OctPath) :
    nodeAt tr (i :: p) =
      match nodeAt tr p with
      | none => none
      | some n => n.children i := rfl

theorem nodeAt_cons_of_some (tr : OctTree) {i : Fin 8} {p : OctPath}
    {n : OctTree} (h : nodeAt tr p = some n) :
    nodeAt tr (i :: p) = n.children i := by
  rw [nodeAt_cons, h]

theorem nodeAt_append_none (tr : OctTree) :
    ∀ (τ p : OctPath), nodeAt tr p = none → nodeAt tr (τ ++ p) = none := by
  intro τ
  induction τ with
  | nil => intro p h; simpa using h
  | cons i τ ih =>
    intro p h
    rw [List.cons_append, nodeAt_cons, ih p h]

theorem isleaf_children_none {n : OctTree} (h : n.isleaf = true) (i : Fin 8) :
    n.children i = none := by
  simp only [OctTree.isleaf, List.all_eq_true] at h
  have := h i (List.mem_finRange i)
  exact Option.isNone_iff_eq_none.mp this

theorem children_some_not_isleaf {n : OctTree} {i : Fin 8} {c : OctTree}
    (h : n.children i = some c) : n.isleaf = false := by
  by_contra hcon
  have := isleaf_children_none (by simpa using hcon) i
  rw [h] at this
  exact Option.noConfusion this

theorem nodeAt_desc_none (tr : OctTree) {p : OctPath} {n : OctTree}
    (hp : nodeAt tr p = some n) (hlf : n.isleaf = true) :
    ∀ (τ : OctPath), τ ≠ [] → nodeAt tr (τ ++ p) = none := by
  intro τ hne
  obtain ⟨i, τ', rfl⟩ : ∃ i τ', τ = τ' ++ [i] := by
    rcases List.eq_nil_or_concat τ with rfl | ⟨τ', i, htau⟩
    · exact absurd rfl hne
    · exact ⟨i, τ', by rw [htau, List.concat_eq_append]⟩
  have h1 : nodeAt tr ([i] ++ p) = none := by
    rw [List.singleton_append, nodeAt_cons_of_some tr hp,
      isleaf_children_none hlf i]
  calc nodeAt tr (τ' ++ [i] ++ p) = nodeAt tr (τ' ++ ([i] ++ p)) := by
        rw [List.append_assoc]
    _ = none := nodeAt_append_none tr τ' _ h1

end Geo

namespace Geo

/-- Structure of an intended neighbor: it exists in the tree, is never
deeper than the node, a strictly shallower neighbor is a leaf, and a
same-depth neighbor points back across the opposite face. -/
theorem Enb_symm (tr : OctTree) :
    ∀ (p : OctPath) (f : CubeFace) (m : OctPath),
      nodeAt tr p ≠ none → Enb tr p f = some m →
      (∃ mn, nodeAt tr m = some mn) ∧
      m.length ≤ p.length ∧
      (m.length < p.length → isLeafAt tr m = true) ∧
      (m.length = p.length → Enb tr m (oppFace f) = some p) := by
  intro p
  induction p with
  | nil => intro f m _ h; simp [Enb] at h
  | cons i σ ih =>
    intro f m hp hE
    have hp' : ∃ n', nodeAt tr (i :: σ) = some n' := by
      cases h : nodeAt tr (i :: σ) with
      | none => exact absurd h hp
      | some n' => exact ⟨n', rfl⟩
    obtain ⟨n', hn'⟩ := hp'
    have hσex : ∃ pn, nodeAt tr σ = some pn := by
      cases hσ0 : nodeAt tr σ with
      | none =>
        rw [nodeAt_cons, hσ0] at hn'
        exact Option.noConfusion hn'
      | some pn => exact ⟨pn, rfl⟩
    obtain ⟨pn, hpn⟩ := hσex
    have hchild : pn.children i = some n' := by
      rw [nodeAt_cons_of_some tr hpn] at hn'
      exact hn'
    simp only [Enb] at hE
    by_cases hsib : childDir i (axisOf f) = -(faceSign f)
    · rw [if_pos hsib] at hE
      cases hm : nodeAt tr (flipChild f i :: σ) with
      | none => rw [hm] at hE; exact absurd hE (by simp)
      | some mn =>
        rw [hm] at hE
        simp only [Option.map_some'] at hE
        obtain rfl := Option.some.inj hE
        refine ⟨⟨mn, hm⟩, by simp, by simp, ?_⟩
        intro _
        have hcond : childDir (flipChild f i) (axisOf (oppFace f))
            = -(faceSign (oppFace f)) := by
          rw [axisOf_opp, childDir_flipChild, faceSign_opp, hsib]
        simp only [Enb, if_pos hcond, flipChild_opp, flipChild_flipChild,
          hn', Option.map_some']
    · rw [if_neg hsib] at hE
      have hout : childDir i (axisOf f) = faceSign f :=
        (childDir_cases f i).resolve_right hsib
      cases hu : Enb tr σ f with
      | none => rw [hu] at hE; exact absurd hE (by simp)
      | some u =>
        simp only [hu] at hE
        obtain ⟨⟨un0, hun0⟩, hlen, hleaf, hsymm⟩ :=
          ih f u (by rw [hpn]; exact fun h => Option.noConfusion h) hu
        cases hun : nodeAt tr u with
        | none => rw [hun] at hE; exact absurd hE (by simp)
        | some un =>
          simp only [hun] at hE
          by_cases hul : un.isleaf
          · rw [if_pos hul] at hE
            obtain rfl := Option.some.inj hE
            refine ⟨⟨un, hun⟩, by simp; omega, ?_, ?_⟩
            · intro _
              simp [isLeafAt, hun, hul]
            · intro hlen2
              simp at hlen2
              omega
          · rw [if_neg (by simpa using hul)] at hE
            cases hc : un.children (flipChild f i) with
            | none => rw [hc] at hE; exact absurd hE (by simp)
            | some cn =>
              rw [hc] at hE
              simp only [Option.map_some'] at hE
              obtain rfl := Option.some.inj hE
              have hulen : u.length = σ.length := by
                rcases lt_or_eq_of_le hlen with hlt | heq
                · have hlf := hleaf hlt
                  rw [isLeafAt, hun] at hlf
                  exact absurd hlf (by simp [hul])
                · exact heq
              refine ⟨⟨cn, by rw [nodeAt_cons_of_some tr hun]; exact hc⟩,
                by simp; omega, by simp; omega, ?_⟩
              intro _
              have hcond : ¬ (childDir (flipChild f i) (axisOf (oppFace f))
                  = -(faceSign (oppFace f))) := by
                rw [axisOf_opp, childDir_flipChild, faceSign_opp, hout]
                rcases faceSign_cases f with h | h <;> rw [h] <;> norm_num
              have hEu : Enb tr u (oppFace f) = some σ := hsymm hulen
              simp only [Enb, if_neg hcond, hEu, hpn,
                children_some_not_isleaf hchild, Bool.false_eq_true,
                if_false, flipChild_opp, flipChild_flipChild, hchild,
                Option.map_some']

/-- Geometry of an intended neighbor: along the face's axis the centers
differ by exactly the (signed) sum of the two halfwidths. -/
theorem Enb_geom (tr : OctTree) (c0 : Fin 3 → ℚ) (hw0 : ℚ) :
    ∀ (p : OctPath) (f : CubeFace) (m : OctPath),
      Enb tr p f = some m →
      ctrAt c0 hw0 m (axisOf f) - ctrAt c0 hw0 p (axisOf f)
        = faceSign f * (hwAt hw0 p + hwAt hw0 m) := by
  intro p
  induction p with
  | nil => intro f m h; simp [Enb] at h
  | cons i σ ih =>
    intro f m hE
    simp only [Enb] at hE
    by_cases hsib : childDir i (axisOf f) = -(faceSign f)
    · rw [if_pos hsib] at hE
      cases hm : nodeAt tr (flipChild f i :: σ) with
      | none => rw [hm] at hE; exact absurd hE (by simp)
      | some mn =>
        rw [hm] at hE
        simp only [Option.map_some'] at hE
        obtain rfl := Option.some.inj hE
        have e1 : childDir (flipChild f i) (axisOf f) = faceSign f := by
          rw [childDir_flipChild, hsib]; ring
        simp only [ctrAt, hwAt, e1, hsib]
        ring
    · rw [if_neg hsib] at hE
      have hout : childDir i (axisOf f) = faceSign f :=
        (childDir_cases f i).resolve_right hsib
      cases hu : Enb tr σ f with
      | none => rw [hu] at hE; exact absurd hE (by simp)
      | some u =>
        simp only [hu] at hE
        have hIH := ih f u hu
        cases hun : nodeAt tr u with
        | none => rw [hun] at hE; exact absurd hE (by simp)
        | some un =>
          simp only [hun] at hE
          by_cases hul : un.isleaf
          · rw [if_pos hul] at hE
            obtain rfl := Option.some.inj hE
            simp only [ctrAt, hwAt, hout]
            linear_combination hIH
          · rw [if_neg (by simpa using hul)] at hE
            cases hc : un.children (flipChild f i) with
            | none => rw [hc] at hE; exact absurd hE (by simp)
            | some cn =>
              rw [hc] at hE
              simp only [Option.map_some'] at hE
              obtain rfl := Option.some.inj hE
              have e1 : childDir (flipChild f i) (axisOf f)
                  = -(faceSign f) := by
                rw [childDir_flipChild, hout]
              simp only [ctrAt, hwAt, e1, hout]
              linear_combination hIH

end Geo

namespace Geo

theorem octAdd_empty (x : Option OctPath) : octAdd x ∅ = optSet x := by
  cases x <;> rfl

theorem getSingleton_optSet (x : Option OctPath) :
    getSingleton (optSet x) = x := by
  cases x with
  | none => simp [getSingleton, optSet]
  | some m => simp [getSingleton, optSet]

theorem mem_optSet {q : OctPath} {x : Option OctPath} :
    q ∈ optSet x ↔ x = some q := by
  cases x <;> simp [optSet, eq_comm]

/-- The 48 `ns[i].add` lines of octtopo.cpp 619-690 in closed form: the
sibling octant across each inward face, the mirror cousin (or the
singleton neighbor's table) across each outward face. -/
theorem nsTable_uniform (tr : OctTree) (s : TopoState) (p : OctPath)
    (n : OctTree) : ∀ (i : Fin 8) (f : CubeFace),
    nsTable tr s p n i f =
      if childDir i (axisOf f) = -(faceSign f) then
        octAdd ((n.children (flipChild f i)).map
          fun _ => flipChild f i :: p) ∅
      else
        octAdd (getChildrenOf tr (getSingleton (s.nbrs p f))
          (flipChild f i)) ∅ := by
  intro i f
  fin_cases i <;> cases f <;> rfl

/-- Under a correct parent entry, the built child tables are exactly the
intended adjacency of the children. -/
theorem nsTable_char {tr : OctTree} {s : TopoState} {p : OctPath}
    {n : OctTree} (hpn : nodeAt tr p = some n)
    (hpre : ∀ f, s.nbrs p f = optSet (Enb tr p f)) :
    ∀ (i : Fin 8) (f : CubeFace),
      nsTable tr s p n i f = optSet (Enb tr (i :: p) f) := by
  intro i f
  rw [nsTable_uniform]
  by_cases hsib : childDir i (axisOf f) = -(faceSign f)
  · rw [if_pos hsib, octAdd_empty]
    simp only [Enb, if_pos hsib]
    rw [nodeAt_cons_of_some tr hpn]
  · rw [if_neg hsib, octAdd_empty, hpre, getSingleton_optSet]
    simp only [Enb, if_neg hsib]
    cases Enb tr p f with
    | none => rfl
    | some u =>
      cases hnu : nodeAt tr u <;> simp [getChildrenOf, hnu]

end Geo

namespace Geo

/-! ## Phase-1 characterization of `init_children` -/

/-- `q` addresses a node in the subtree rooted at `p` (possibly `p`). -/
def Desc (q p : OctPath) : Prop := ∃ τ, q = τ ++ p

/-- `q` addresses a strict descendant of `p`. -/
def SDesc (q p : OctPath) : Prop := ∃ τ, τ ≠ [] ∧ q = τ ++ p

/-- The path addresses a live node. -/
def ExA (tr : OctTree) (q : OctPath) : Prop := nodeAt tr q ≠ none

theorem desc_refl (p : OctPath) : Desc p p := ⟨[], rfl⟩

theorem desc_of_sdesc {q p : OctPath} (h : SDesc q p) : Desc q p :=
  ⟨h.choose, h.choose_spec.2⟩

theorem sdesc_irrefl (p : OctPath) : ¬ SDesc p p := by
  rintro ⟨τ, hτ, h⟩
  have := congrArg List.length h
  simp at this
  exact hτ this

theorem sdesc_of_desc_cons {q p : OctPath} {j : Fin 8}
    (h : Desc q (j :: p)) : SDesc q p := by
  obtain ⟨τ, rfl⟩ := h
  exact ⟨τ ++ [j], by simp, by simp⟩

theorem desc_iff {q p : OctPath} : Desc q p ↔ q = p ∨ SDesc q p := by
  constructor
  · rintro ⟨τ, rfl⟩
    rcases eq_or_ne τ [] with rfl | hτ
    · exact Or.inl (by simp)
    · exact Or.inr ⟨τ, hτ, rfl⟩
  · rintro (rfl | h)
    · exact desc_refl q
    · exact desc_of_sdesc h

theorem sdesc_iff_exists_cons {q p : OctPath} :
    SDesc q p ↔ ∃ j : Fin 8, Desc q (j :: p) := by
  constructor
  · rintro ⟨τ, hτ, rfl⟩
    obtain ⟨τ', j, htau⟩ : ∃ τ' j, τ = τ' ++ [j] := by
      rcases List.eq_nil_or_concat τ with rfl | ⟨τ', j, h⟩
      · exact absurd rfl hτ
      · exact ⟨τ', j, by rw [h, List.concat_eq_append]⟩
    exact ⟨j, τ', by rw [htau]; simp⟩
  · rintro ⟨j, h⟩
    exact sdesc_of_desc_cons h

theorem desc_cons_inj {q p : OctPath} {j k : Fin 8}
    (h1 : Desc q (j :: p)) (h2 : Desc q (k :: p)) : j = k := by
  obtain ⟨τ1, rfl⟩ := h1
  obtain ⟨τ2, he⟩ := h2
  have hlen : τ1.length = τ2.length := by
    have := congrArg List.length he
    simp at this
    omega
  obtain ⟨-, h⟩ := List.append_inj he hlen
  exact (List.cons.inj h).1

theorem not_exa_of_desc {tr : OctTree} {q r : OctPath}
    (hd : Desc q r) (hr : nodeAt tr r = none) : ¬ ExA tr q := by
  obtain ⟨τ, rfl⟩ := hd
  intro hex
  exact hex (nodeAt_append_none tr τ r hr)

theorem childSize {n : OctTree} {i : Fin 8} {t : OctTree}
    (h : n.children i = some t) : sizeOf t < sizeOf n := by
  cases n
  fin_cases i <;> simp [OctTree.children] at h <;> (cases h; simp; omega)

/-- Postcondition of `init_children` at a node: exactly the existing
strict descendants are added to the map, each with its intended
adjacency, and every other entry is untouched. -/
def ICPost (tr : OctTree) (p : OctPath) (s s' : TopoState) : Prop :=
  (∀ q, q ∈ s'.keys ↔ q ∈ s.keys ∨ (SDesc q p ∧ ExA tr q)) ∧
  (∀ q f, SDesc q p → ExA tr q → s'.nbrs q f = optSet (Enb tr q f)) ∧
  (∀ q f, ¬ (SDesc q p ∧ ExA tr q) → s'.nbrs q f = s.nbrs q f)

/-- The same postcondition restricted to the first `k` octants. -/
def AccCond (tr : OctTree) (p : OctPath) (k : ℕ) (q : OctPath) : Prop :=
  (∃ j : Fin 8, (j : ℕ) < k ∧ Desc q (j :: p)) ∧ ExA tr q

def AccPost (tr : OctTree) (p : OctPath) (s : TopoState) (k : ℕ)
    (sk : TopoState) : Prop :=
  (∀ q, q ∈ sk.keys ↔ q ∈ s.keys ∨ AccCond tr p k q) ∧
  (∀ q f, AccCond tr p k q → sk.nbrs q f = optSet (Enb tr q f)) ∧
  (∀ q f, ¬ AccCond tr p k q → sk.nbrs q f = s.nbrs q f)

theorem accCond_succ {tr : OctTree} {p : OctPath} {k : Fin 8} {q : OctPath} :
    AccCond tr p (k.val + 1) q ↔
      AccCond tr p k.val q ∨ (Desc q (k :: p) ∧ ExA tr q) := by
  constructor
  · rintro ⟨⟨j, hj, hd⟩, hex⟩
    rcases Nat.lt_succ_iff_lt_or_eq.mp hj with h | h
    · exact Or.inl ⟨⟨j, h, hd⟩, hex⟩
    · exact Or.inr ⟨by rwa [← Fin.ext h], hex⟩
  · rintro (⟨⟨j, hj, hd⟩, hex⟩ | ⟨hd, hex⟩)
    · exact ⟨⟨j, Nat.lt_succ_of_lt hj, hd⟩, hex⟩
    · exact ⟨⟨k, Nat.lt_succ_self _, hd⟩, hex⟩

/-- One register-and-recurse step of the `init_children` child loop. -/
theorem icStep (tr : OctTree) (N : ℕ)
    (hrec : ∀ t : OctTree, sizeOf t ≤ N → ∀ (p' : OctPath) (s' : TopoState),
      nodeAt tr p' = some t →
      (∀ f, s'.nbrs p' f = optSet (Enb tr p' f)) →
      ICPost tr p' s' (initChildren tr t p' s'))
    {n : OctTree} {p : OctPath} (hn : nodeAt tr p = some n)
    (hsz : ∀ (i : Fin 8) t, n.children i = some t → sizeOf t ≤ N)
    {ns : Fin 8 → CubeFace → Finset OctPath}
    (hns : ∀ i f, ns i f = optSet (Enb tr (i :: p) f))
    (k : Fin 8) {s sk : TopoState}
    (hAcc : AccPost tr p s k.val sk) :
    AccPost tr p s (k.val + 1) (initChildO tr (n.children k) k p ns sk) := by
  obtain ⟨haK, haP, haF⟩ := hAcc
  cases hck : n.children k with
  | none =>
    show AccPost tr p s (k.val + 1) sk
    have hnoex : ∀ q, Desc q (k :: p) → ¬ ExA tr q := by
      intro q hd
      refine not_exa_of_desc hd ?_
      rw [nodeAt_cons_of_some tr hn, hck]
    have hcond : ∀ q, AccCond tr p (k.val + 1) q ↔ AccCond tr p k.val q := by
      intro q
      rw [accCond_succ]
      constructor
      · rintro (h | ⟨hd, hex⟩)
        · exact h
        · exact absurd hex (hnoex q hd)
      · exact Or.inl
    exact ⟨fun q => (haK q).trans (or_congr_right (hcond q).symm),
      fun q f hc => haP q f ((hcond q).mp hc),
      fun q f hc => haF q f (fun h => hc ((hcond q).symm.mp h))⟩
  | some t =>
    show AccPost tr p s (k.val + 1)
      (initChildren tr t (k :: p) (regChild sk p k ns))
    have hexk : ExA tr (k :: p) := by
      intro h
      rw [nodeAt_cons_of_some tr hn, hck] at h
      exact Option.noConfusion h
    have hpost := hrec t (hsz k t hck) (k :: p) (regChild sk p k ns)
      (by rw [nodeAt_cons_of_some tr hn]; exact hck)
      (by
        intro f
        show Function.update sk.nbrs (k :: p) (ns k) (k :: p) f = _
        rw [Function.update_same, hns])
    obtain ⟨hK, hP, hF⟩ := hpost
    refine ⟨fun q => ?_, fun q f hc => ?_, fun q f hc => ?_⟩
    · rw [hK q]
      show (q ∈ insert (k :: p) sk.keys ∨ _) ↔ _
      rw [Finset.mem_insert, haK q, accCond_succ]
      constructor
      · rintro ((rfl | h) | ⟨hsd, hex⟩)
        · exact Or.inr (Or.inr ⟨desc_refl _, hexk⟩)
        · rcases h with h | h
          · exact Or.inl h
          · exact Or.inr (Or.inl h)
        · exact Or.inr (Or.inr ⟨desc_of_sdesc hsd, hex⟩)
      · rintro (h | (h | ⟨hd, hex⟩))
        · exact Or.inl (Or.inr (Or.inl h))
        · exact Or.inl (Or.inr (Or.inr h))
        · rcases desc_iff.mp hd with rfl | hsd
          · exact Or.inl (Or.inl rfl)
          · exact Or.inr ⟨hsd, hex⟩
    · rcases (accCond_succ).mp hc with hold | ⟨hd, hex⟩
      · have hne : ¬ (SDesc q (k :: p) ∧ ExA tr q) := by
          rintro ⟨hsd, -⟩
          obtain ⟨⟨j, hj, hdj⟩, -⟩ := hold
          have := desc_cons_inj hdj (desc_of_sdesc hsd)
          omega
        rw [hF q f hne]
        have hq : q ≠ k :: p := by
          rintro rfl
          obtain ⟨⟨j, hj, hdj⟩, -⟩ := hold
          have := desc_cons_inj hdj (desc_refl _)
          omega
        show Function.update sk.nbrs (k :: p) (ns k) q f = _
        rw [Function.update_noteq hq]
        exact haP q f hold
      · rcases desc_iff.mp hd with rfl | hsd
        · have hne : ¬ (SDesc (k :: p) (k :: p) ∧ ExA tr (k :: p)) :=
            fun ⟨hsd, _⟩ => sdesc_irrefl _ hsd
          rw [hF _ f hne]
          show Function.update sk.nbrs (k :: p) (ns k) (k :: p) f = _
          rw [Function.update_same, hns]
        · exact hP q f hsd hex
    · have h1 : ¬ AccCond tr p k.val q :=
        fun h => hc ((accCond_succ).mpr (Or.inl h))
      have h2 : ¬ (Desc q (k :: p) ∧ ExA tr q) :=
        fun h => hc ((accCond_succ).mpr (Or.inr h))
      have hne : ¬ (SDesc q (k :: p) ∧ ExA tr q) :=
        fun ⟨hsd, hex⟩ => h2 ⟨desc_of_sdesc hsd, hex⟩
      rw [hF q f hne]
      have hq : q ≠ k :: p := by
        rintro rfl
        exact h2 ⟨desc_refl _, hexk⟩
      show Function.update sk.nbrs (k :: p) (ns k) q f = _
      rw [Function.update_noteq hq]
      exact haF q f h1

end Geo

namespace Geo

set_option maxHeartbeats 3200000 in
/-- `init_children` adds exactly the tree's existing strict descendants
of the node to the map, each with the intended adjacency, and leaves
every other entry alone. -/
theorem initChildren_char (tr : OctTree) :
    ∀ (N : ℕ) (n : OctTree), sizeOf n ≤ N →
    ∀ (p : OctPath) (s : TopoState), nodeAt tr p = some n →
      (∀ f, s.nbrs p f = optSet (Enb tr p f)) →
      ICPost tr p s (initChildren tr n p s) := by
  intro N
  induction N with
  | zero =>
    intro n hsz
    exact absurd hsz (by cases n; simp)
  | succ N ih =>
    intro n hsz p s hn hpre
    obtain ⟨c0, c1, c2, c3, c4, c5, c6, c7⟩ := n
    by_cases hlf : (OctTree.node c0 c1 c2 c3 c4 c5 c6 c7).isleaf
    · rw [initChildren, if_pos hlf]
      have hnone : ∀ q, SDesc q p → ¬ ExA tr q := by
        rintro q ⟨τ, hτ, rfl⟩ hex
        exact hex (nodeAt_desc_none tr hn hlf τ hτ)
      refine ⟨fun q => ?_, fun q f hsd hex => absurd hex (hnone q hsd),
        fun q f _ => rfl⟩
      constructor
      · exact Or.inl
      · rintro (h | ⟨hsd, hex⟩)
        · exact h
        · exact absurd hex (hnone q hsd)
    · rw [initChildren, if_neg hlf]
      have hns := nsTable_char hn hpre
      have hsz' : ∀ (i : Fin 8) t,
          (OctTree.node c0 c1 c2 c3 c4 c5 c6 c7).children i = some t →
          sizeOf t ≤ N := by
        intro i t h
        have := childSize h
        omega
      have hrec : ∀ t : OctTree, sizeOf t ≤ N →
          ∀ (p' : OctPath) (s' : TopoState), nodeAt tr p' = some t →
          (∀ f, s'.nbrs p' f = optSet (Enb tr p' f)) →
          ICPost tr p' s' (initChildren tr t p' s') :=
        fun t ht => ih t ht
      have h0 : AccPost tr p s 0 s := by
        refine ⟨fun q => ?_, fun q f hc => ?_, fun q f _ => rfl⟩
        · simp [AccCond]
        · exact absurd hc (by simp [AccCond])
      have h1 := icStep tr N hrec hn hsz' hns 0 h0
      have h2 := icStep tr N hrec hn hsz' hns 1 h1
      have h3 := icStep tr N hrec hn hsz' hns 2 h2
      have h4 := icStep tr N hrec hn hsz' hns 3 h3
      have h5 := icStep tr N hrec hn hsz' hns 4 h4
      have h6 := icStep tr N hrec hn hsz' hns 5 h5
      have h7 := icStep tr N hrec hn hsz' hns 6 h6
      have h8 := icStep tr N hrec hn hsz' hns 7 h7
      obtain ⟨hK, hP, hF⟩ := h8
      have hcond : ∀ q, AccCond tr p 8 q ↔ SDesc q p ∧ ExA tr q := by
        intro q
        constructor
        · rintro ⟨⟨j, -, hd⟩, hex⟩
          exact ⟨sdesc_of_desc_cons hd, hex⟩
        · rintro ⟨hsd, hex⟩
          obtain ⟨j, hd⟩ := sdesc_iff_exists_cons.mp hsd
          exact ⟨⟨j, j.isLt, hd⟩, hex⟩
      exact ⟨fun q => (hK q).trans (or_congr_right (hcond q)),
        fun q f hsd hex => hP q f ((hcond q).mpr ⟨hsd, hex⟩),
        fun q f hne => hF q f (fun h => hne ((hcond q).mp h))⟩

end Geo

namespace Geo

/-! ## Phase 2: `remove_nonleafs` invariants -/

theorem hwAt_pos {hw0 : ℚ} (h : 0 < hw0) : ∀ p : OctPath, 0 < hwAt hw0 p
  | [] => h
  | _ :: p => by
    have := hwAt_pos h p
    simp only [hwAt]
    linarith

theorem sdesc_nil_iff {q : OctPath} : SDesc q [] ↔ q ≠ [] := by
  constructor
  · rintro ⟨τ, hτ, rfl⟩
    simpa using hτ
  · intro h
    exact ⟨q, h, by simp⟩

/-- After phase 1 the map keys are exactly the live paths and every
neighbor set is the singleton (or empty) intended adjacency. -/
theorem phase1_char (tr : OctTree) :
    (∀ q, q ∈ (initChildren tr tr []
        ⟨{([] : OctPath)}, fun _ _ => ∅⟩).keys ↔ ExA tr q) ∧
    (∀ q f m, m ∈ (initChildren tr tr []
        ⟨{([] : OctPath)}, fun _ _ => ∅⟩).nbrs q f ↔
      ExA tr q ∧ Enb tr q f = some m) := by
  obtain ⟨hK, hP, hF⟩ := initChildren_char tr (sizeOf tr) tr (le_refl _)
    [] ⟨{([] : OctPath)}, fun _ _ => ∅⟩ rfl (fun f => rfl)
  constructor
  · intro q
    rw [hK q]
    rcases eq_or_ne q [] with rfl | hq
    · simp [ExA, nodeAt]
    · simp only [Finset.mem_singleton, hq, false_or, sdesc_nil_iff]
      constructor
      · rintro ⟨-, h⟩; exact h
      · intro h; exact ⟨hq, h⟩
  · intro q f m
    rcases eq_or_ne q [] with rfl | hq
    · rw [hF [] f (fun h => sdesc_irrefl [] h.1)]
      simp [Enb]
    · by_cases hex : ExA tr q
      · rw [hP q f (sdesc_nil_iff.mpr hq) hex, mem_optSet]
        simp [hex]
      · rw [hF q f (fun h => hex h.2)]
        simp [hex]

/-- The `remove_nonleafs` walk invariant over the processed prefix `P`:
keys are the live paths; every link joins live nodes at the exact
geometric offset; a leaf's non-leaf neighbor is still unprocessed and
mirrored; processed leaves are mirrored everywhere; processed non-leaves
are gone from every leaf's sets. -/
def P2Inv (tr : OctTree) (c0 : Fin 3 → ℚ) (hw0 : ℚ) (P : List OctPath)
    (s : TopoState) : Prop :=
  (∀ q, q ∈ s.keys ↔ ExA tr q) ∧
  (∀ n f m, m ∈ s.nbrs n f → ExA tr n ∧ ExA tr m ∧
     ctrAt c0 hw0 m (axisOf f) - ctrAt c0 hw0 n (axisOf f)
       = faceSign f * (hwAt hw0 n + hwAt hw0 m)) ∧
  (∀ n f m, isLeafAt tr n = true → m ∈ s.nbrs n f →
     isLeafAt tr m = false → m ∉ P ∧ n ∈ s.nbrs m (oppFace f)) ∧
  (∀ n, n ∈ P → isLeafAt tr n = true →
     ∀ f m, m ∈ s.nbrs n f → n ∈ s.nbrs m (oppFace f)) ∧
  (∀ q, q ∈ P → isLeafAt tr q = false →
     ∀ m f, isLeafAt tr m = true → q ∉ s.nbrs m f)

theorem p2inv_no_self {tr : OctTree} {c0 : Fin 3 → ℚ} {hw0 : ℚ}
    (hhw : 0 < hw0) {P : List OctPath} {s : TopoState}
    (hinv : P2Inv tr c0 hw0 P s) :
    ∀ q f, q ∉ s.nbrs q f := by
  intro q f hmem
  obtain ⟨-, -, hgeo⟩ := hinv.2.1 q f q hmem
  have hpos := hwAt_pos hhw q
  rcases faceSign_cases f with h | h <;> rw [h] at hgeo <;> nlinarith

/-- The start of phase 2: nothing processed yet. -/
theorem p2inv_init (tr : OctTree) (c0 : Fin 3 → ℚ) (hw0 : ℚ) :
    P2Inv tr c0 hw0 []
      (initChildren tr tr [] ⟨{([] : OctPath)}, fun _ _ => ∅⟩) := by
  obtain ⟨hK, hM⟩ := phase1_char tr
  refine ⟨hK, ?_, ?_, by simp, by simp⟩
  · intro n f m hmem
    obtain ⟨hex, hE⟩ := (hM n f m).mp hmem
    obtain ⟨⟨mn, hmn⟩, -, -, -⟩ := Enb_symm tr n f m hex hE
    exact ⟨hex, by rw [ExA, hmn]; exact fun h => Option.noConfusion h,
      Enb_geom tr c0 hw0 n f m hE⟩
  · intro n f m hnl hmem hml
    obtain ⟨hex, hE⟩ := (hM n f m).mp hmem
    obtain ⟨⟨mn, hmn⟩, hlen, hleaf, hsymm⟩ := Enb_symm tr n f m hex hE
    have hmex : ExA tr m := by rw [ExA, hmn]; exact fun h => Option.noConfusion h
    rcases lt_or_eq_of_le hlen with hlt | heq
    · rw [hleaf hlt] at hml
      exact absurd hml (by simp)
    · refine ⟨by simp, ?_⟩
      rw [hM m (oppFace f) n]
      exact ⟨hmex, hsymm heq⟩

end Geo

namespace Geo

/-- One `remove_nonleafs` iteration preserves the walk invariant, with
the processed entry added to the prefix. -/
theorem processNode_inv (tr : OctTree) (c0 : Fin 3 → ℚ) {hw0 : ℚ}
    (hhw : 0 < hw0) {P : List OctPath} {s s' : TopoState} {n : OctPath}
    (hinv : P2Inv tr c0 hw0 P s) (hpr : processNode tr s n = some s') :
    P2Inv tr c0 hw0 (n :: P) s' := by
  have hself := p2inv_no_self hhw hinv
  obtain ⟨hK, hA, hB, hC, hD⟩ := hinv
  simp only [processNode] at hpr
  by_cases hok : (∀ f, s.nbrs n f ⊆ s.keys)
  swap
  · rw [if_neg hok] at hpr
    exact absurd hpr (by simp)
  rw [if_pos hok] at hpr
  have hst' := Option.some.inj hpr
  have hkeys : s'.keys = s.keys := (congrArg TopoState.keys hst').symm
  have hnbrs : ∀ m g, s'.nbrs m g =
      if (isLeafAt tr n) then
        (if m ∈ s.nbrs n (oppFace g) then insert n (s.nbrs m g)
         else s.nbrs m g)
      else
        (if m ∈ s.nbrs n (oppFace g) then (s.nbrs m g).erase n
         else s.nbrs m g) := by
    intro m g
    exact congrFun (congrFun (congrArg TopoState.nbrs hst'.symm) m) g
  have hnbrs_n : ∀ g, s'.nbrs n g = s.nbrs n g := by
    intro g
    rw [hnbrs n g]
    by_cases h : isLeafAt tr n = true
    · rw [if_pos h, if_neg (hself n (oppFace g))]
    · rw [if_neg h, if_neg (hself n (oppFace g))]
  by_cases hnl : isLeafAt tr n = true
  · -- processing a leaf entry: only insertions happen
    have hmem : ∀ m g x, x ∈ s'.nbrs m g ↔
        x ∈ s.nbrs m g ∨ (x = n ∧ m ∈ s.nbrs n (oppFace g)) := by
      intro m g x
      rw [hnbrs m g, if_pos hnl]
      by_cases hc : m ∈ s.nbrs n (oppFace g)
      · rw [if_pos hc]
        simp only [Finset.mem_insert, hc, and_true]
        tauto
      · rw [if_neg hc]
        simp [hc]
    refine ⟨fun q => by rw [hkeys]; exact hK q, ?_, ?_, ?_, ?_⟩
    · -- geometry
      intro m g x hx
      rcases (hmem m g x).mp hx with hold | ⟨rfl, hmir⟩
      · exact hA m g x hold
      · obtain ⟨hexn, hexm, hgeo⟩ := hA x (oppFace g) m hmir
        refine ⟨hexm, hexn, ?_⟩
        rw [axisOf_opp, faceSign_opp] at hgeo
        linear_combination (-1 : ℚ) * hgeo
    · -- (B)
      intro nL f m hnlL hx hml
      rcases (hmem nL f m).mp hx with hold | ⟨rfl, -⟩
      · obtain ⟨hmP, hmir⟩ := hB nL f m hnlL hold hml
        refine ⟨?_, (hmem m (oppFace f) nL).mpr (Or.inl hmir)⟩
        intro hmem'
        rcases List.mem_cons.mp hmem' with rfl | h
        · rw [hnl] at hml; exact Bool.noConfusion hml
        · exact hmP h
      · rw [hnl] at hml; exact Bool.noConfusion hml
    · -- (C)
      intro q hq hql f m hx
      rcases List.mem_cons.mp hq with rfl | hqP
      · -- the just-processed leaf itself
        rw [hnbrs_n f] at hx
        exact (hmem m (oppFace f) q).mpr
          (Or.inr ⟨rfl, by rwa [oppFace_oppFace]⟩)
      · rcases (hmem q f m).mp hx with hold | ⟨rfl, hmir⟩
        · exact (hmem m (oppFace f) q).mpr
            (Or.inl (hC q hqP hql f m hold))
        · rw [hnbrs_n (oppFace f)]
          exact hmir
    · -- (D)
      intro q hq hql m f hml hx
      rcases (hmem m f q).mp hx with hold | ⟨rfl, -⟩
      · rcases List.mem_cons.mp hq with rfl | hqP
        · rw [hnl] at hql; exact Bool.noConfusion hql
        · exact hD q hqP hql m f hml hold
      · rw [hnl] at hql; exact Bool.noConfusion hql
  · -- processing a non-leaf entry: only removals happen
    have hnl' : isLeafAt tr n = false := by
      rcases h : isLeafAt tr n with _ | _
      · rfl
      · exact absurd h hnl
    have hmem : ∀ m g x, x ∈ s'.nbrs m g ↔
        x ∈ s.nbrs m g ∧ ¬ (x = n ∧ m ∈ s.nbrs n (oppFace g)) := by
      intro m g x
      rw [hnbrs m g, if_neg hnl]
      by_cases hc : m ∈ s.nbrs n (oppFace g)
      · rw [if_pos hc]
        simp only [Finset.mem_erase, hc, and_true]
        tauto
      · rw [if_neg hc]
        simp [hc]
    refine ⟨fun q => by rw [hkeys]; exact hK q, ?_, ?_, ?_, ?_⟩
    · intro m g x hx
      exact hA m g x ((hmem m g x).mp hx).1
    · -- (B)
      intro nL f m hnlL hx hml
      obtain ⟨hold, hnot⟩ := (hmem nL f m).mp hx
      have hmn : m ≠ n := by
        rintro rfl
        obtain ⟨-, hmir⟩ := hB nL f m hnlL hold hml
        exact hnot ⟨rfl, hmir⟩
      obtain ⟨hmP, hmir⟩ := hB nL f m hnlL hold hml
      refine ⟨?_, ?_⟩
      · intro hmem'
        rcases List.mem_cons.mp hmem' with rfl | h
        · exact hmn rfl
        · exact hmP h
      · refine (hmem m (oppFace f) nL).mpr ⟨hmir, ?_⟩
        rintro ⟨rfl, -⟩
        rw [hnlL] at hnl'
        exact Bool.noConfusion hnl'
    · -- (C)
      intro q hq hql f m hx
      rcases List.mem_cons.mp hq with rfl | hqP
      · rw [hql] at hnl'; exact Bool.noConfusion hnl'
      · obtain ⟨hold, -⟩ := (hmem q f m).mp hx
        have hmir := hC q hqP hql f m hold
        refine (hmem m (oppFace f) q).mpr ⟨hmir, ?_⟩
        rintro ⟨rfl, -⟩
        rw [hql] at hnl'; exact Bool.noConfusion hnl'
    · -- (D)
      intro q hq hql m f hml hx
      obtain ⟨hold, hnot⟩ := (hmem m f q).mp hx
      rcases List.mem_cons.mp hq with rfl | hqP
      · obtain ⟨-, hmir⟩ := hB m f q hml hold hql
        exact hnot ⟨rfl, hmir⟩
      · exact hD q hqP hql m f hml hold

end Geo

namespace Geo

/-- The invariant only reads membership of the processed prefix. -/
theorem p2inv_mono {tr : OctTree} {c0 : Fin 3 → ℚ} {hw0 : ℚ}
    {P P' : List OctPath} {s : TopoState}
    (hmem : ∀ x, x ∈ P ↔ x ∈ P') (h : P2Inv tr c0 hw0 P s) :
    P2Inv tr c0 hw0 P' s := by
  obtain ⟨hK, hA, hB, hC, hD⟩ := h
  exact ⟨hK, hA,
    fun n f m h1 h2 h3 =>
      ⟨fun hm => (hB n f m h1 h2 h3).1 ((hmem m).mpr hm),
       (hB n f m h1 h2 h3).2⟩,
    fun n hn => hC n ((hmem n).mpr hn),
    fun q hq => hD q ((hmem q).mpr hq)⟩

/-- The whole map walk preserves the invariant, accumulating the walked
entries. -/
theorem rnlLoop_inv (tr : OctTree) (c0 : Fin 3 → ℚ) {hw0 : ℚ}
    (hhw : 0 < hw0) :
    ∀ (l P : List OctPath) (s s' : TopoState),
      rnlLoop tr l s = some s' → P2Inv tr c0 hw0 P s →
      P2Inv tr c0 hw0 (l ++ P) s' := by
  intro l
  induction l with
  | nil =>
    intro P s s' heq hinv
    simp only [rnlLoop, Option.some.injEq] at heq
    subst heq
    simpa using hinv
  | cons n rest ih =>
    intro P s s' heq hinv
    simp only [rnlLoop] at heq
    cases hpr : processNode tr s n with
    | none => rw [hpr] at heq; exact absurd heq (by simp)
    | some s1 =>
      rw [hpr] at heq
      have h1 := processNode_inv tr c0 hhw hinv hpr
      have h2 := ih (n :: P) s1 s' heq h1
      refine p2inv_mono (fun x => ?_) h2
      simp [List.mem_append, List.mem_cons]
      tauto

/-- C1: after `octtopo_t::init` (phase 1 `init_children` plus
`remove_nonleafs` over the map entries in any order), every stored node
is a leaf; every recorded (node, face, neighbor) triple has its neighbor
stored in the map with the node in the neighbor's opposite-face set; and
along the face's axis the two centers differ by exactly the sum of the
two halfwidths (exact in ℚ, hence within the claim's 1e-9). -/
theorem C1_octtopo_init_invariants (tr : OctTree) (c0 : Fin 3 → ℚ)
    (hw0 : ℚ) (hhw : 0 < hw0) (order : List OctPath) (s' : TopoState)
    (horder : ∀ q, q ∈ order ↔ ExA tr q)
    (hrun : octtopoInit tr order = some s') :
    (∀ n, n ∈ s'.keys → isLeafAt tr n = true) ∧
    (∀ n f m, n ∈ s'.keys → m ∈ s'.nbrs n f →
        m ∈ s'.keys ∧ n ∈ s'.nbrs m (oppFace f)) ∧
    (∀ n f m, n ∈ s'.keys → m ∈ s'.nbrs n f →
        ctrAt c0 hw0 m (axisOf f) - ctrAt c0 hw0 n (axisOf f)
          = faceSign f * (hwAt hw0 n + hwAt hw0 m)) := by
  simp only [octtopoInit, removeNonleafs] at hrun
  cases hloop : rnlLoop tr order
      (initChildren tr tr [] ⟨{([] : OctPath)}, fun _ _ => ∅⟩) with
  | none => rw [hloop] at hrun; exact absurd hrun (by simp)
  | some sF =>
    rw [hloop] at hrun
    have hsF := Option.some.inj hrun
    have hkeys : s'.keys = sF.keys.filter fun p => isLeafAt tr p :=
      (congrArg TopoState.keys hsF).symm
    have hnbrs : s'.nbrs = sF.nbrs := (congrArg TopoState.nbrs hsF).symm
    have hinv := rnlLoop_inv tr c0 hhw order []
      (initChildren tr tr [] ⟨{([] : OctPath)}, fun _ _ => ∅⟩) sF hloop
      (p2inv_init tr c0 hw0)
    have hinv : P2Inv tr c0 hw0 order sF :=
      p2inv_mono (fun x => by simp) hinv
    obtain ⟨hK, hA, hB, hC, hD⟩ := hinv
    have hkey_iff : ∀ q, q ∈ s'.keys ↔ ExA tr q ∧ isLeafAt tr q = true := by
      intro q
      rw [hkeys, Finset.mem_filter, hK]
    refine ⟨fun n hn => ((hkey_iff n).mp hn).2, ?_, ?_⟩
    · intro n f m hn hm
      rw [hnbrs] at hm
      obtain ⟨hexn, hexm, -⟩ := hA n f m hm
      obtain ⟨-, hln⟩ := (hkey_iff n).mp hn
      have hml : isLeafAt tr m = true := by
        by_contra hc
        have hml' : isLeafAt tr m = false := by
          rcases h : isLeafAt tr m with _ | _
          · rfl
          · exact absurd h hc
        exact hD m ((horder m).mpr hexm) hml' n f hln hm
      refine ⟨(hkey_iff m).mpr ⟨hexm, hml⟩, ?_⟩
      rw [hnbrs]
      exact hC n ((horder n).mpr hexn) hln f m hm
    · intro n f m hn hm
      rw [hnbrs] at hm
      exact (hA n f m hm).2.2

end Geo

namespace Geo

/-- A childless node. -/
def leafT : OctTree := .node none none none none none none none none

/-- A two-leaf tree: children 0 and 1 of the root are leaves. -/
def treeW : OctTree := .node (some leafT) (some leafT) none none none none
  none none

theorem leafT_children : ∀ j : Fin 8, leafT.children j = none := by
  intro j
  fin_cases j <;> rfl

theorem treeW_depth : ∀ (σ : OctPath) (j : Fin 8),
    nodeAt treeW (j :: σ) = none ∨ nodeAt treeW (j :: σ) = some leafT := by
  intro σ
  induction σ with
  | nil =>
    intro j
    fin_cases j <;> first | exact Or.inr rfl | exact Or.inl rfl
  | cons k σ' ih =>
    intro j
    rcases ih k with h | h
    · left
      rw [nodeAt_cons, h]
    · left
      rw [nodeAt_cons, h]
      exact leafT_children j

theorem treeW_order : ∀ q, q ∈ ([[], [0], [1]] : List OctPath) ↔
    ExA treeW q := by
  intro q
  constructor
  · intro hq
    rcases List.mem_cons.mp hq with rfl | hq
    · intro h; exact Option.noConfusion h
    rcases List.mem_cons.mp hq with rfl | hq
    · intro h; exact Option.noConfusion h
    rcases List.mem_cons.mp hq with rfl | hq
    · intro h; exact Option.noConfusion h
    · exact absurd hq (by simp)
  · intro hq
    match q with
    | [] => simp
    | [i] =>
      fin_cases i
      · simp
      · simp
      all_goals exact absurd rfl hq
    | i :: j :: σ =>
      exfalso
      rcases treeW_depth σ j with h | h
      · exact hq (nodeAt_append_none treeW [i] _ h)
      · exact hq (by rw [nodeAt_cons_of_some treeW h, leafT_children i])

/-- C1: witness.  Running `init` on the two-leaf tree succeeds and the
resulting map satisfies all three invariants with root halfwidth 1. -/
theorem C1_octtopo_init_invariants_witness :
    ∃ s', octtopoInit treeW [[], [0], [1]] = some s' ∧
      ((∀ n, n ∈ s'.keys → isLeafAt treeW n = true) ∧
       (∀ n f m, n ∈ s'.keys → m ∈ s'.nbrs n f →
           m ∈ s'.keys ∧ n ∈ s'.nbrs m (oppFace f)) ∧
       (∀ n f m, n ∈ s'.keys → m ∈ s'.nbrs n f →
           ctrAt (fun _ => 0) 1 m (axisOf f)
               - ctrAt (fun _ => 0) 1 n (axisOf f)
             = faceSign f * (hwAt 1 n + hwAt 1 m))) := by
  have hs : (octtopoInit treeW [[], [0], [1]]).isSome := by decide
  exact ⟨(octtopoInit treeW [[], [0], [1]]).get hs, (Option.some_get hs).symm,
    C1_octtopo_init_invariants treeW (fun _ => 0) 1 (by norm_num)
      [[], [0], [1]] _ (fun q => treeW_order q) (Option.some_get hs).symm⟩

end Geo
